import Mathlib

/-!
Shallow embedding of the supply-chain provenance graph builder
(`build_supply_chain_graph` and its inner `trace_to_roots`) from
`backend/posts/router.py`, together with theorems checking the
natural-language specification of the builder against this code.

Python dictionaries are modelled as insertion-ordered association lists
(overwriting a key keeps its original position, as CPython dicts do);
Python sets are modelled as insertion-ordered duplicate-free lists, of
which only membership is ever observed by the algorithm.
-/

namespace NeutraLink

/-- One crate record as decoded from a Solana `CrateRecord` account: the
fields of the dictionaries handed to `build_supply_chain_graph`. -/
structure CrateData where
  pubkey : String
  crate_id : String
  authority : String
  weight : Nat
  timestamp : Int
  hash : String
  ipfs_cid : String
  operation_type : String
  parent_crates : List String
  child_crates : List String
  parent_weights : List Nat
  split_distribution : Option (List Nat)
  deriving DecidableEq, Repr

/-- `CrateNode`: a crate record plus the two fields computed by the graph
builder (`is_root`, `depth`). -/
structure CrateNode where
  pubkey : String
  crate_id : String
  authority : String
  weight : Nat
  timestamp : Int
  hash : String
  ipfs_cid : String
  operation_type : String
  parent_crates : List String
  child_crates : List String
  parent_weights : List Nat
  split_distribution : Option (List Nat)
  is_root : Bool
  depth : Nat
  deriving DecidableEq, Repr

/-- The `SupplyChainGraph` returned by `build_supply_chain_graph`. -/
structure SupplyChainGraph where
  total_crates : Nat
  root_crates : List String
  crates : List (String × CrateNode)
  lineages : List (String × List String)
  deriving DecidableEq, Repr

/-! ### Association lists with Python-dict semantics -/

/-- Lookup in an association list (`d[k]` / `d.get(k)`). -/
def aget? {α : Type} : List (String × α) → String → Option α
  | [], _ => none
  | (k', v) :: rest, k => if k' = k then some v else aget? rest k

/-- Key list of an association list, in insertion order. -/
def akeys {α : Type} (m : List (String × α)) : List String := m.map Prod.fst

/-- `d[k] = v`: overwrite in place if the key is present (keeping its
position, as CPython dicts do), otherwise append at the end. -/
def ainsert {α : Type} : List (String × α) → String → α → List (String × α)
  | [], k, v => [(k, v)]
  | (k', v') :: rest, k, v =>
    if k' = k then (k', v) :: rest else (k', v') :: ainsert rest k v

/-- Update the value at a key in place (`d[k].field = ...`); no-op when the
key is absent. -/
def aupd {α : Type} : List (String × α) → String → (α → α) → List (String × α)
  | [], _, _ => []
  | (k', v) :: rest, k, f =>
    if k' = k then (k', f v) :: aupd rest k f else (k', v) :: aupd rest k f

/-- `s.add(k)` on a Python set, modelled on insertion-ordered lists. -/
def saddL (s : List String) (k : String) : List String :=
  if k ∈ s then s else s ++ [k]

abbrev CrateMap := List (String × CrateNode)

/-- `crate_map[k].depth = d`. -/
def setDepth (m : CrateMap) (k : String) (d : Nat) : CrateMap :=
  aupd m k (fun n => { n with depth := d })

/-- Parents list of the node stored at a key (empty when absent). -/
def parentsOf (m : CrateMap) (k : String) : List String :=
  ((aget? m k).map CrateNode.parent_crates).getD []

/-- Children list of the node stored at a key (empty when absent). -/
def childrenOf (m : CrateMap) (k : String) : List String :=
  ((aget? m k).map CrateNode.child_crates).getD []

/-! ### First pass: create all nodes, record roots -/

/-- The `CrateNode(...)` constructed for one record in the first pass:
`is_root = len(parent_crates) == 0`, `depth = 0`. -/
def mkNode (c : CrateData) : CrateNode :=
  { pubkey := c.pubkey
    crate_id := c.crate_id
    authority := c.authority
    weight := c.weight
    timestamp := c.timestamp
    hash := c.hash
    ipfs_cid := c.ipfs_cid
    operation_type := c.operation_type
    parent_crates := c.parent_crates
    child_crates := c.child_crates
    parent_weights := c.parent_weights
    split_distribution := c.split_distribution
    is_root := c.parent_crates = []
    depth := 0 }

/-- One iteration of the first pass: store the node under its pubkey and
record it as a root when its parents list is empty. -/
def indexStep (st : CrateMap × List String) (c : CrateData) :
    CrateMap × List String :=
  (ainsert st.1 c.pubkey (mkNode c),
   if c.parent_crates = [] then saddL st.2 c.pubkey else st.2)

/-- First pass of `build_supply_chain_graph`: build `crate_map` and
`root_crates` by iterating over the input records. -/
def buildIndex (crates : List CrateData) : CrateMap × List String :=
  crates.foldl indexStep ([], [])

/-! ### Second pass: BFS over `child_crates` from the roots -/

/-- The inner `for child_pubkey in current_node.child_crates` loop of the
BFS: each child that is in the map and unvisited is marked visited, given
depth `d+1`, and appended to the queue. -/
def expandChildren :
    List String → Nat → List (String × Nat) → List String → CrateMap →
    List (String × Nat) × List String × CrateMap
  | [], _, q, v, m => (q, v, m)
  | c :: cs, d, q, v, m =>
    if c ∈ akeys m ∧ c ∉ v then
      expandChildren cs d (q ++ [(c, d + 1)]) (v ++ [c]) (setDepth m c (d + 1))
    else
      expandChildren cs d q v m

theorem akeys_aupd {α : Type} (m : List (String × α)) (k : String) (f : α → α) :
    akeys (aupd m k f) = akeys m := by
  induction m with
  | nil => rfl
  | cons kv rest ih =>
    obtain ⟨k1, v1⟩ := kv
    rw [aupd]
    by_cases h : k1 = k
    · rw [if_pos h]
      show k1 :: akeys (aupd rest k f) = k1 :: akeys rest
      rw [ih]
    · rw [if_neg h]
      show k1 :: akeys (aupd rest k f) = k1 :: akeys rest
      rw [ih]

theorem akeys_setDepth (m : CrateMap) (k : String) (d : Nat) :
    akeys (setDepth m k d) = akeys m :=
  akeys_aupd m k _

theorem expandChildren_akeys (cs : List String) (d : Nat) :
    ∀ q v m, akeys (expandChildren cs d q v m).2.2 = akeys m := by
  induction cs with
  | nil => intro q v m; rfl
  | cons c cs ih =>
    intro q v m
    by_cases h : c ∈ akeys m ∧ c ∉ v
    · rw [expandChildren, if_pos h, ih, akeys_setDepth]
    · rw [expandChildren, if_neg h, ih]

/-- Number of keys of `K` not yet visited: the decreasing part of the BFS
termination measure. -/
def unvisCount (K : List String) (v : List String) : Nat :=
  (K.filter (fun x => decide (x ∉ v))).length

theorem unvisCount_cons (k : String) (K v : List String) :
    unvisCount (k :: K) v = (if k ∈ v then 0 else 1) + unvisCount K v := by
  by_cases h : k ∈ v <;> simp [unvisCount, List.filter_cons, h] <;> omega

theorem unvisCount_mono (K : List String) :
    ∀ v w : List String, (∀ x, x ∈ v → x ∈ w) → unvisCount K w ≤ unvisCount K v := by
  induction K with
  | nil => intro v w _; simp [unvisCount]
  | cons k K ih =>
    intro v w hvw
    have hK := ih v w hvw
    rw [unvisCount_cons, unvisCount_cons]
    by_cases hkv : k ∈ v
    · have hkw : k ∈ w := hvw k hkv
      simp only [hkv, hkw, if_pos]
      omega
    · by_cases hkw : k ∈ w <;> simp only [hkv, hkw, if_pos, if_neg,
        not_false_iff] <;> omega

theorem unvisCount_snoc_lt (K : List String) :
    ∀ v c, c ∈ K → c ∉ v → unvisCount K (v ++ [c]) < unvisCount K v := by
  induction K with
  | nil => intro v c hc; exact absurd hc (List.not_mem_nil c)
  | cons k K ih =>
    intro v c hcK hcv
    have hmono : unvisCount K (v ++ [c]) ≤ unvisCount K v :=
      unvisCount_mono K v (v ++ [c]) (fun x hx => by simp [hx])
    rw [unvisCount_cons, unvisCount_cons]
    by_cases hkc : k = c
    · subst hkc
      have h1 : k ∈ v ++ [k] := by simp
      simp only [h1, hcv, if_pos, if_neg, not_false_iff]
      omega
    · have hcK' : c ∈ K := by
        rcases List.mem_cons.mp hcK with h | h
        · exact absurd h.symm hkc
        · exact h
      have := ih v c hcK' hcv
      by_cases hkv : k ∈ v
      · have hkva : k ∈ v ++ [c] := by simp [hkv]
        simp only [hkv, hkva, if_pos]
        omega
      · have hkva : k ∉ v ++ [c] := by
          simp only [List.mem_append, List.mem_singleton]
          rintro (h | h)
          · exact hkv h
          · exact hkc h
        simp only [hkv, hkva, if_neg, not_false_iff]
        omega

theorem unvisCount_congr (K : List String) (v w : List String)
    (h : ∀ x, x ∈ v ↔ x ∈ w) : unvisCount K v = unvisCount K w :=
  Nat.le_antisymm
    (unvisCount_mono K w v fun x hx => (h x).mpr hx)
    (unvisCount_mono K v w fun x hx => (h x).mp hx)

theorem unvisCount_cons_lt (K : List String) (v : List String) (c : String)
    (hcK : c ∈ K) (hcv : c ∉ v) : unvisCount K (c :: v) < unvisCount K v := by
  have h : unvisCount K (c :: v) = unvisCount K (v ++ [c]) :=
    unvisCount_congr K _ _ (fun x => by simp [or_comm])
  rw [h]
  exact unvisCount_snoc_lt K v c hcK hcv

theorem aget?_mem {α : Type} :
    ∀ (m : List (String × α)) (k : String) (v : α),
      aget? m k = some v → k ∈ akeys m := by
  intro m
  induction m with
  | nil => intro k v h; simp [aget?] at h
  | cons kv rest ih =>
    intro k v h
    rw [aget?] at h
    show k ∈ kv.1 :: akeys rest
    by_cases hk : kv.1 = k
    · exact hk ▸ List.mem_cons_self _ _
    · rw [if_neg hk] at h
      exact List.mem_cons_of_mem _ (ih k v h)

theorem aget?_eq_none {α : Type} :
    ∀ (m : List (String × α)) (k : String),
      aget? m k = none ↔ k ∉ akeys m := by
  intro m
  induction m with
  | nil => intro k; simp [aget?, akeys]
  | cons kv rest ih =>
    intro k
    rw [aget?]
    by_cases hk : kv.1 = k
    · simp [akeys, hk]
    · rw [if_neg hk]
      simp [akeys, hk, ih]
      intro h
      exact fun hEq => hk hEq.symm

theorem mem_akeys_exists {α : Type} (m : List (String × α)) (k : String)
    (h : k ∈ akeys m) : ∃ v, aget? m k = some v := by
  cases hm : aget? m k with
  | none => exact absurd ((aget?_eq_none m k).mp hm) (not_not_intro h)
  | some v => exact ⟨v, rfl⟩

/-- Measure bound for one `expandChildren` run: twice the unvisited count
plus the queue length never grows. -/
theorem expandChildren_measure (cs : List String) (d : Nat) :
    ∀ q v m,
      2 * unvisCount (akeys (expandChildren cs d q v m).2.2)
          (expandChildren cs d q v m).2.1 +
        (expandChildren cs d q v m).1.length ≤
      2 * unvisCount (akeys m) v + q.length := by
  induction cs with
  | nil => intro q v m; exact Nat.le_refl _
  | cons c cs ih =>
    intro q v m
    by_cases h : c ∈ akeys m ∧ c ∉ v
    · rw [expandChildren, if_pos h]
      have h1 := ih (q ++ [(c, d + 1)]) (v ++ [c]) (setDepth m c (d + 1))
      have h2 : unvisCount (akeys (setDepth m c (d + 1))) (v ++ [c]) <
          unvisCount (akeys m) v := by
        rw [akeys_setDepth]
        exact unvisCount_snoc_lt (akeys m) v c h.1 h.2
      have h3 : (q ++ [(c, d + 1)]).length = q.length + 1 := by simp
      omega
    · rw [expandChildren, if_neg h]
      exact ih q v m

/-- The BFS `while queue:` loop of `build_supply_chain_graph`: pop
`(current, depth)`, walk the node's `child_crates`, and continue until the
queue is empty.  Returns the final visited set and crate map. -/
def bfsLoop (q : List (String × Nat)) (v : List String) (m : CrateMap) :
    List String × CrateMap :=
  match q with
  | [] => (v, m)
  | (k, d) :: rest =>
    let r := expandChildren (childrenOf m k) d rest v m
    bfsLoop r.1 r.2.1 r.2.2
termination_by 2 * unvisCount (akeys m) v + q.length
decreasing_by
  have h := expandChildren_measure (childrenOf m k) d rest v m
  simp only [List.length_cons]
  omega

/-- One iteration of BFS seeding: append the root to the queue at depth 0,
add it to the visited set and set its stored depth to 0. -/
def seedStep (st : List (String × Nat) × List String × CrateMap)
    (r : String) : List (String × Nat) × List String × CrateMap :=
  (st.1 ++ [(r, 0)], saddL st.2.1 r, setDepth st.2.2 r 0)

/-- Seeding of the BFS: every root is appended to the queue at depth 0,
added to the visited set, and its stored depth is set to 0. -/
def seedRoots (R : List String) (m : CrateMap) :
    List (String × Nat) × List String × CrateMap :=
  R.foldl seedStep ([], [], m)

/-- The whole BFS pass (seeding followed by the loop). -/
def bfsPhase (m : CrateMap) (R : List String) : List String × CrateMap :=
  let s := seedRoots R m
  bfsLoop s.1 s.2.1 s.2.2

/-! ### Fallback pass for unvisited nodes (orphans and cycles) -/

/-- One iteration of the `for pubkey, node in crate_map.items()` fallback
loop.  An unvisited node with a non-empty parents list gets
`min(depth(p) for p in parents if p in map) + 1` (or `0` when no parent is
in the map, the `default=-1` branch); an unvisited node with no parents is
promoted to a root. -/
def fallbackStep (v : List String) (st : CrateMap × List String) (k : String) :
    CrateMap × List String :=
  if k ∈ v then st
  else
    match aget? st.1 k with
    | none => st
    | some node =>
      if node.parent_crates = [] then
        (aupd st.1 k (fun n => { n with is_root := true, depth := 0 }),
         saddL st.2 k)
      else
        let ds := node.parent_crates.filterMap
          (fun p => (aget? st.1 p).map CrateNode.depth)
        match ds.min? with
        | some dm => (setDepth st.1 k (dm + 1), st.2)
        | none => (setDepth st.1 k 0, st.2)

/-- Third loop of `build_supply_chain_graph`: handle unvisited nodes. -/
def fallbackPass (v : List String) (m : CrateMap) (roots : List String) :
    CrateMap × List String :=
  (akeys m).foldl (fallbackStep v) (m, roots)

/-! ### Lineage tracing -/

/-- `trace_to_roots(pubkey, visited_path)`: recursively trace back through
`parent_crates`, with a per-branch visited set as cycle guard.  Each
returned path is built as `[pubkey] + parent_path`. -/
def tracePaths (m : CrateMap) (k : String) (vp : List String) :
    List (List String) :=
  if hv : k ∈ vp then []
  else
    match hm : aget? m k with
    | none => []
    | some node =>
      if node.is_root then [[k]]
      else if node.parent_crates = [] then [[k]]
      else
        let all := (node.parent_crates.map (fun p =>
          ((tracePaths m p (k :: vp)).filter (fun pp => !pp.isEmpty)).map
            (fun pp => k :: pp))).flatten
        if all = [] then [[k]] else all
termination_by unvisCount (akeys m) vp
decreasing_by
  exact unvisCount_cons_lt (akeys m) vp k (aget?_mem m k node hm) hv

/-- Python's `min(paths, key=len)`: the first path of minimal length. -/
def minByLen : List (List String) → Option (List String)
  | [] => none
  | p :: ps =>
    some (ps.foldl (fun best q => if q.length < best.length then q else best) p)

/-- The lineage stored for one key: `min(paths, key=len)` when
`trace_to_roots` returned any paths, else `[pubkey]`. -/
def lineageFor (m : CrateMap) (k : String) : List String :=
  match minByLen (tracePaths m k []) with
  | some p => p
  | none => [k]

/-- Fourth loop of `build_supply_chain_graph`: build the lineage map. -/
def lineagePass (m : CrateMap) : List (String × List String) :=
  (akeys m).foldl (fun lins k => ainsert lins k (lineageFor m k)) []

/-! ### The builder -/

/-- `build_supply_chain_graph(crates)`, assembled from its four passes. -/
def build_supply_chain_graph (crates : List CrateData) : SupplyChainGraph :=
  let ix := buildIndex crates
  let bfs := bfsPhase ix.1 ix.2
  let fb := fallbackPass bfs.1 bfs.2 ix.2
  { total_crates := fb.1.length
    root_crates := fb.2
    crates := fb.1
    lineages := lineagePass fb.1 }



/-! ### Specification-side notions -/

/-- `ReachesRoot m k n`: along `parent_crates` edges inside the map, `k`
reaches a parentless record (a root in the spec's sense) in exactly `n`
hops.  The true shortest hop count from `k` to any root is the least such
`n`. -/
inductive ReachesRoot (m : CrateMap) : String → Nat → Prop
  | root (k : String) : k ∈ akeys m → parentsOf m k = [] → ReachesRoot m k 0
  | step (k p : String) (n : Nat) : k ∈ akeys m → p ∈ parentsOf m k →
      ReachesRoot m p n → ReachesRoot m k (n + 1)

/-- `FromRoots m R k n`: `k` is reachable in `n` hops from the root set `R`
along forward `child_crates` edges that stay inside the map — the graph the
BFS actually explores. -/
inductive FromRoots (m : CrateMap) (R : List String) : String → Nat → Prop
  | base (r : String) : r ∈ R → FromRoots m R r 0
  | step (u c : String) (n : Nat) : FromRoots m R u n → c ∈ childrenOf m u →
      c ∈ akeys m → FromRoots m R c (n + 1)

/-! ### Concrete scenario records -/

/-- Record constructor used by the concrete scenarios; only `pubkey`,
`parent_crates` and `child_crates` vary in them. -/
def mkC (pk : String) (ps cs : List String) : CrateData :=
  { pubkey := pk, crate_id := pk, authority := "auth", weight := 1,
    timestamp := 0, hash := "h", ipfs_cid := "cid", operation_type := "create",
    parent_crates := ps, child_crates := cs, parent_weights := [],
    split_distribution := none }

/-- Scenario A: `A` (no parents), `B` (parents=[A]), `C` (parents=[B]),
with consistent child links. -/
def recA : CrateData := mkC "A" [] ["B"]

def recB : CrateData := mkC "B" ["A"] ["C"]

def recC : CrateData := mkC "C" ["B"] []

/-- Scenario B (mix/tie-break): `A` root, `B` and `C` children of `A`,
`D` with both `B` and `C` as parents — here listed as `["C", "B"]`. -/
def recTA : CrateData := mkC "A" [] ["B", "C"]

def recTB : CrateData := mkC "B" ["A"] ["D"]

def recTC : CrateData := mkC "C" ["A"] ["D"]

def recTD_CB : CrateData := mkC "D" ["C", "B"] []

def recTD_BC : CrateData := mkC "D" ["B", "C"] []

/-- Scenario C (orphan): `E` whose only listed parent is absent. -/
def recE : CrateData := mkC "E" ["missing-key"] []

/-- Scenario D (cycle): `F` and `G` are each other's parent and child. -/
def recF : CrateData := mkC "F" ["G"] ["G"]

def recG : CrateData := mkC "G" ["F"] ["F"]

/-- A three-record chain whose `child_crates` back-references are all
empty (inconsistent with `parent_crates`), in input order `C, B, A`. -/
def recCnc : CrateData := mkC "C" ["B"] []

def recBnc : CrateData := mkC "B" ["A"] []

def recAnc : CrateData := mkC "A" [] []

/-- The node with its `depth` field reset: what of a `CrateNode` the BFS
pass can never change. -/
def eraseDepth (n : CrateNode) : CrateNode := { n with depth := 0 }

/-- The record part of a node: everything except the two computed fields
`is_root` and `depth`. -/
def projData (n : CrateNode) : CrateData :=
  { pubkey := n.pubkey, crate_id := n.crate_id, authority := n.authority,
    weight := n.weight, timestamp := n.timestamp, hash := n.hash,
    ipfs_cid := n.ipfs_cid, operation_type := n.operation_type,
    parent_crates := n.parent_crates, child_crates := n.child_crates,
    parent_weights := n.parent_weights,
    split_distribution := n.split_distribution }

/-- The last record of the input with the given `pubkey` — the occurrence
that survives the dict overwrite policy. -/
def findLast? : List CrateData → String → Option CrateData
  | [], _ => none
  | c :: cs, k =>
    match findLast? cs k with
    | some c' => some c'
    | none => if c.pubkey = k then some c else none

/-- The computed-field invariant maintained by every pass: a stored node is
flagged as root exactly when its own parents list is empty. -/
def RootInvB (m : CrateMap) : Prop :=
  ∀ k n, aget? m k = some n → n.is_root = decide (n.parent_crates = [])

/-! ### C1 -/

unseal bfsLoop tracePaths in
/-- **C1** (code bug): on Scenario A the builder assigns depths
`A:0, B:1, C:2` as claimed, but stores `lineages[C] = ["C","B","A"]` — the
path runs from the queried node back to the root, not from the root to the
node as the claim (and `trace_to_roots`'s own docstring) states. -/
theorem c1_scenarioA_lineage_is_node_to_root :
    (aget? (build_supply_chain_graph [recA, recB, recC]).crates "A").map
        CrateNode.depth = some 0 ∧
    (aget? (build_supply_chain_graph [recA, recB, recC]).crates "B").map
        CrateNode.depth = some 1 ∧
    (aget? (build_supply_chain_graph [recA, recB, recC]).crates "C").map
        CrateNode.depth = some 2 ∧
    aget? (build_supply_chain_graph [recA, recB, recC]).lineages "C" =
      some ["C", "B", "A"] ∧
    ¬ aget? (build_supply_chain_graph [recA, recB, recC]).lineages "C" =
      some ["A", "B", "C"] := by
  decide

/-! ### C5 -/

unseal bfsLoop tracePaths in
/-- **C5** (counterexample): with `D.parent_crates = ["C", "B"]` the chosen
lineage for `D` goes through `"C"`, although `"B" < "C"`
lexicographically — the tie is not broken by lexicographic order. -/
theorem c5_counterexample :
    aget? (build_supply_chain_graph [recTA, recTB, recTC, recTD_CB]).lineages
        "D" = some ["D", "C", "A"] ∧
    "B" < "C" := by
  refine ⟨by decide, ?_⟩
  rw [String.lt_iff_toList_lt]
  exact List.Lex.rel (by decide)

unseal bfsLoop tracePaths in
/-- **C5** (amended): among the equal-length candidate paths the builder
keeps the first one in depth-first order over the parents list, so the
lineage of `D` goes through whichever of `B`/`C` is listed first in
`D.parent_crates`; the stored path runs node-to-root. -/
theorem c5_amended_tie_break_by_parent_order :
    aget? (build_supply_chain_graph [recTA, recTB, recTC, recTD_BC]).lineages
        "D" = some ["D", "B", "A"] ∧
    aget? (build_supply_chain_graph [recTA, recTB, recTC, recTD_CB]).lineages
        "D" = some ["D", "C", "A"] := by
  decide

/-! ### C6 -/

unseal bfsLoop tracePaths in
/-- **C6** (counterexample): on the two-record parent cycle `[F, G]` the
builder does not give `F` depth 0, and its lineage is not the singleton
`["F"]`. -/
theorem c6_counterexample :
    ¬ (aget? (build_supply_chain_graph [recF, recG]).crates "F").map
        CrateNode.depth = some 0 ∧
    ¬ aget? (build_supply_chain_graph [recF, recG]).lineages "F" =
      some ["F"] := by
  decide

unseal bfsLoop tracePaths in
/-- **C6** (amended): on the two-record parent cycle in input order
`[F, G]`, the fallback assigns `F` depth 1 and `G` depth 2 (each reads the
other's current depth in map order), neither is promoted to a root, and the
cycle guard makes the lineages the two-element paths `["F","G"]` and
`["G","F"]` rather than singletons. -/
theorem c6_amended_cycle_depths_and_lineages :
    (aget? (build_supply_chain_graph [recF, recG]).crates "F").map
        CrateNode.depth = some 1 ∧
    (aget? (build_supply_chain_graph [recF, recG]).crates "G").map
        CrateNode.depth = some 2 ∧
    aget? (build_supply_chain_graph [recF, recG]).lineages "F" =
      some ["F", "G"] ∧
    aget? (build_supply_chain_graph [recF, recG]).lineages "G" =
      some ["G", "F"] ∧
    (build_supply_chain_graph [recF, recG]).root_crates = [] := by
  decide

/-! ### C4 counterexample -/

unseal bfsLoop tracePaths in
/-- **C4** (counterexample): the two orderings of the same two-record
multiset `{F, G}` build different per-key depths, so the builder is not
order-independent. -/
theorem c4_counterexample :
    List.Perm [recF, recG] [recG, recF] ∧
    (aget? (build_supply_chain_graph [recF, recG]).crates "F").map
        CrateNode.depth = some 1 ∧
    (aget? (build_supply_chain_graph [recG, recF]).crates "F").map
        CrateNode.depth = some 2 := by
  refine ⟨List.Perm.swap _ _ _, ?_, ?_⟩ <;> decide

/-! ### C3 counterexample -/

unseal bfsLoop tracePaths in
/-- **C3** (counterexample): the orphan record `E` (its only parent absent
from the snapshot) gets depth 0 but is **not** promoted to a synthetic
root: `is_root` stays `false` and `E` is not added to the root set. -/
theorem c3_counterexample :
    (aget? (build_supply_chain_graph [recE]).crates "E").map
        CrateNode.is_root = some false ∧
    (aget? (build_supply_chain_graph [recE]).crates "E").map
        CrateNode.depth = some 0 ∧
    (build_supply_chain_graph [recE]).root_crates = [] := by
  decide

/-! ### C2 counterexample -/

unseal bfsLoop tracePaths in
/-- **C2** (counterexample): on the acyclic snapshot `[C, B, A]` (chain
`C -> B -> A` through `parent_crates`, all parents present, but with empty
`child_crates` back-references) the builder assigns `C` depth 1, while the
true shortest hop count from `C` to a root along parents edges is 2, not
1 — the BFS walks `child_crates`, and the fallback reads stale depths. -/
theorem c2_counterexample :
    (aget? (build_supply_chain_graph [recCnc, recBnc, recAnc]).crates "C").map
        CrateNode.depth = some 1 ∧
    ReachesRoot (build_supply_chain_graph [recCnc, recBnc, recAnc]).crates
      "C" 2 ∧
    ¬ ReachesRoot (build_supply_chain_graph [recCnc, recBnc, recAnc]).crates
      "C" 1 := by
  refine ⟨by decide, ?_, ?_⟩
  · exact .step "C" "B" 1 (by decide) (by decide)
      (.step "B" "A" 0 (by decide) (by decide)
        (.root "A" (by decide) (by decide)))
  · intro h
    cases h with
    | step k p n hk hp hr =>
      have hps : parentsOf
          (build_supply_chain_graph [recCnc, recBnc, recAnc]).crates "C" =
          ["B"] := by decide
      rw [hps] at hp
      have hpB : p = "B" := by simpa using hp
      subst hpB
      cases hr with
      | root _ hk0 hp0 =>
        have hpsB : parentsOf
            (build_supply_chain_graph [recCnc, recBnc, recAnc]).crates "B" =
            ["A"] := by decide
        rw [hpsB] at hp0
        exact absurd hp0 (by decide)

/-! ### Association-list lemmas -/

theorem aget?_ainsert_self {α : Type} :
    ∀ (m : List (String × α)) (k : String) (v : α),
      aget? (ainsert m k v) k = some v := by
  intro m k v
  induction m with
  | nil => simp [ainsert, aget?]
  | cons kv rest ih =>
    obtain ⟨k1, v1⟩ := kv
    rw [ainsert]
    by_cases h : k1 = k
    · rw [if_pos h, aget?, if_pos h]
    · rw [if_neg h, aget?, if_neg h]
      exact ih

theorem aget?_ainsert_other {α : Type} :
    ∀ (m : List (String × α)) (k k' : String) (v : α), k' ≠ k →
      aget? (ainsert m k v) k' = aget? m k' := by
  intro m k k' v hne
  induction m with
  | nil =>
    have h : ¬ k = k' := fun h => hne h.symm
    simp [ainsert, aget?, h]
  | cons kv rest ih =>
    obtain ⟨k1, v1⟩ := kv
    rw [ainsert]
    by_cases h : k1 = k
    · rw [if_pos h, aget?, aget?]
      by_cases h' : k1 = k'
      · exact absurd (h'.symm.trans h) hne
      · rw [if_neg h', if_neg h']
    · rw [if_neg h, aget?, aget?]
      by_cases h' : k1 = k'
      · rw [if_pos h', if_pos h']
      · rw [if_neg h', if_neg h']
        exact ih

theorem aget?_aupd_self {α : Type} :
    ∀ (m : List (String × α)) (k : String) (f : α → α),
      aget? (aupd m k f) k = (aget? m k).map f := by
  intro m k f
  induction m with
  | nil => simp [aupd, aget?]
  | cons kv rest ih =>
    obtain ⟨k1, v1⟩ := kv
    rw [aupd]
    by_cases h : k1 = k
    · rw [if_pos h, aget?, aget?, if_pos h, if_pos h]
      rfl
    · rw [if_neg h, aget?, aget?, if_neg h, if_neg h]
      exact ih

theorem aget?_aupd_other {α : Type} :
    ∀ (m : List (String × α)) (k k' : String) (f : α → α), k' ≠ k →
      aget? (aupd m k f) k' = aget? m k' := by
  intro m k k' f hne
  induction m with
  | nil => simp [aupd, aget?]
  | cons kv rest ih =>
    obtain ⟨k1, v1⟩ := kv
    rw [aupd]
    by_cases h : k1 = k
    · have h' : ¬ k1 = k' := fun hh => hne (hh.symm.trans h)
      rw [if_pos h, aget?, aget?, if_neg h', if_neg h']
      exact ih
    · rw [if_neg h, aget?, aget?]
      by_cases h' : k1 = k'
      · rw [if_pos h', if_pos h']
      · rw [if_neg h', if_neg h']
        exact ih

theorem mem_akeys_ainsert {α : Type} :
    ∀ (m : List (String × α)) (k x : String) (v : α),
      (x ∈ akeys (ainsert m k v) ↔ x ∈ akeys m ∨ x = k) := by
  intro m k x v
  induction m with
  | nil => simp [ainsert, akeys]
  | cons kv rest ih =>
    obtain ⟨k1, v1⟩ := kv
    rw [ainsert]
    by_cases h : k1 = k
    · subst h
      rw [if_pos rfl]
      simp only [akeys, List.map_cons, List.mem_cons]
      tauto
    · rw [if_neg h]
      simp only [akeys, List.map_cons, List.mem_cons] at ih ⊢
      rw [ih]
      tauto

theorem akeys_nodup_ainsert {α : Type} :
    ∀ (m : List (String × α)) (k : String) (v : α),
      (akeys m).Nodup → (akeys (ainsert m k v)).Nodup := by
  intro m k v hnd
  induction m with
  | nil => simp [ainsert, akeys]
  | cons kv rest ih =>
    obtain ⟨k1, v1⟩ := kv
    have hnd' : (akeys rest).Nodup := (List.nodup_cons.mp hnd).2
    have hk1 : k1 ∉ akeys rest := (List.nodup_cons.mp hnd).1
    rw [ainsert]
    by_cases h : k1 = k
    · rw [if_pos h]
      exact hnd
    · rw [if_neg h]
      show ((k1 :: akeys (ainsert rest k v)) : List String).Nodup
      refine List.nodup_cons.mpr ⟨?_, ih hnd'⟩
      intro hmem
      rcases (mem_akeys_ainsert rest k k1 v).mp hmem with hh | hh
      · exact hk1 hh
      · exact h hh

theorem length_ainsert {α : Type} :
    ∀ (m : List (String × α)) (k : String) (v : α),
      (ainsert m k v).length =
        if k ∈ akeys m then m.length else m.length + 1 := by
  intro m k v
  induction m with
  | nil => simp [ainsert, akeys]
  | cons kv rest ih =>
    obtain ⟨k1, v1⟩ := kv
    rw [ainsert]
    by_cases h : k1 = k
    · subst h
      rw [if_pos rfl, if_pos (by simp [akeys])]
      simp
    · rw [if_neg h]
      have hmem : (k ∈ akeys ((k1, v1) :: rest)) ↔ k ∈ akeys rest := by
        simp only [akeys, List.map_cons, List.mem_cons]
        constructor
        · rintro (hh | hh)
          · exact absurd hh.symm h
          · exact hh
        · exact Or.inr
      by_cases hk : k ∈ akeys rest
      · rw [if_pos (hmem.mpr hk)]
        simp only [List.length_cons]
        rw [ih, if_pos hk]
      · rw [if_neg (fun hh => hk (hmem.mp hh))]
        simp only [List.length_cons]
        rw [ih, if_neg hk]

theorem mem_saddL (s : List String) (k x : String) :
    x ∈ saddL s k ↔ x ∈ s ∨ x = k := by
  rw [saddL]
  by_cases h : k ∈ s
  · rw [if_pos h]
    constructor
    · exact Or.inl
    · rintro (hh | hh)
      · exact hh
      · rw [hh]
        exact h
  · rw [if_neg h]
    simp [List.mem_append]

theorem nodup_saddL (s : List String) (k : String) (h : s.Nodup) :
    (saddL s k).Nodup := by
  rw [saddL]
  by_cases hk : k ∈ s
  · rw [if_pos hk]
    exact h
  · rw [if_neg hk]
    rw [List.nodup_append]
    refine ⟨h, List.nodup_singleton k, ?_⟩
    intro x hx hxk
    rw [List.mem_singleton] at hxk
    subst hxk
    exact hk hx

/-! ### First-pass characterization -/

theorem findLast?_spec :
    ∀ (crates : List CrateData) (k : String) (c : CrateData),
      findLast? crates k = some c → c ∈ crates ∧ c.pubkey = k := by
  intro crates k
  induction crates with
  | nil => intro c h; simp [findLast?] at h
  | cons c0 cs ih =>
    intro c h
    rw [findLast?] at h
    cases hf : findLast? cs k with
    | some c' =>
      rw [hf] at h
      obtain ⟨h1, h2⟩ := ih c' hf
      cases h
      exact ⟨List.mem_cons_of_mem _ h1, h2⟩
    | none =>
      rw [hf] at h
      by_cases hp : c0.pubkey = k
      · rw [if_pos hp] at h
        cases h
        exact ⟨List.mem_cons_self _ _, hp⟩
      · rw [if_neg hp] at h
        exact absurd h (by simp)

theorem findLast?_eq_none :
    ∀ (crates : List CrateData) (k : String),
      findLast? crates k = none ↔ ∀ c ∈ crates, c.pubkey ≠ k := by
  intro crates k
  induction crates with
  | nil => simp [findLast?]
  | cons c0 cs ih =>
    rw [findLast?]
    cases hf : findLast? cs k with
    | some c' =>
      simp only [hf]
      obtain ⟨h1, h2⟩ := findLast?_spec cs k c' hf
      constructor
      · intro h
        exact absurd h (by simp)
      · intro h
        exact absurd h2 (h c' (List.mem_cons_of_mem _ h1))
    | none =>
      simp only [hf]
      by_cases hp : c0.pubkey = k
      · rw [if_pos hp]
        constructor
        · intro h
          exact absurd h (by simp)
        · intro h
          exact absurd hp (h c0 (List.mem_cons_self _ _))
      · rw [if_neg hp]
        simp only [List.mem_cons, ne_eq, true_iff]
        intro c hc
        rcases hc with hc | hc
        · subst hc
          exact hp
        · exact (ih.mp hf) c hc

theorem foldl_indexStep_lookup (crates : List CrateData) :
    ∀ (st : CrateMap × List String) (k : String),
      aget? (crates.foldl indexStep st).1 k =
        match findLast? crates k with
        | some c => some (mkNode c)
        | none => aget? st.1 k := by
  induction crates with
  | nil => intro st k; rfl
  | cons c cs ih =>
    intro st k
    rw [List.foldl_cons, ih, findLast?]
    cases hf : findLast? cs k with
    | some c' => rfl
    | none =>
      show aget? (indexStep st c).1 k = _
      rw [indexStep]
      by_cases h : c.pubkey = k
      · rw [if_pos h]
        subst h
        exact aget?_ainsert_self st.1 c.pubkey (mkNode c)
      · rw [if_neg h]
        exact aget?_ainsert_other st.1 c.pubkey k (mkNode c)
          (fun hh => h hh.symm)

theorem buildIndex_lookup (crates : List CrateData) (k : String) :
    aget? (buildIndex crates).1 k = (findLast? crates k).map mkNode := by
  rw [buildIndex, foldl_indexStep_lookup]
  cases hf : findLast? crates k with
  | some c => rfl
  | none => rfl

theorem foldl_indexStep_keys_mem (crates : List CrateData) :
    ∀ (st : CrateMap × List String) (x : String),
      (x ∈ akeys (crates.foldl indexStep st).1 ↔
        x ∈ akeys st.1 ∨ ∃ c ∈ crates, c.pubkey = x) := by
  induction crates with
  | nil => intro st x; simp
  | cons c cs ih =>
    intro st x
    rw [List.foldl_cons, ih]
    show x ∈ akeys (ainsert st.1 c.pubkey (mkNode c)) ∨ _ ↔ _
    rw [mem_akeys_ainsert]
    simp only [List.mem_cons]
    constructor
    · rintro ((h | h) | ⟨c', h1, h2⟩)
      · exact Or.inl h
      · exact Or.inr ⟨c, Or.inl rfl, h.symm⟩
      · exact Or.inr ⟨c', Or.inr h1, h2⟩
    · rintro (h | ⟨c', h1 | h1, h2⟩)
      · exact Or.inl (Or.inl h)
      · subst h1
        exact Or.inl (Or.inr h2.symm)
      · exact Or.inr ⟨c', h1, h2⟩

theorem buildIndex_keys_mem (crates : List CrateData) (x : String) :
    x ∈ akeys (buildIndex crates).1 ↔ ∃ c ∈ crates, c.pubkey = x := by
  rw [buildIndex, foldl_indexStep_keys_mem]
  simp [akeys]

theorem foldl_indexStep_keys_nodup (crates : List CrateData) :
    ∀ (st : CrateMap × List String), (akeys st.1).Nodup →
      (akeys (crates.foldl indexStep st).1).Nodup := by
  induction crates with
  | nil => intro st h; exact h
  | cons c cs ih =>
    intro st h
    rw [List.foldl_cons]
    exact ih _ (akeys_nodup_ainsert st.1 c.pubkey (mkNode c) h)

theorem buildIndex_keys_nodup (crates : List CrateData) :
    (akeys (buildIndex crates).1).Nodup :=
  foldl_indexStep_keys_nodup crates ([], []) (by simp [akeys])

theorem foldl_indexStep_roots_mem (crates : List CrateData) :
    ∀ (st : CrateMap × List String) (x : String),
      (x ∈ (crates.foldl indexStep st).2 ↔
        x ∈ st.2 ∨ ∃ c ∈ crates, c.pubkey = x ∧ c.parent_crates = []) := by
  induction crates with
  | nil => intro st x; simp
  | cons c cs ih =>
    intro st x
    rw [List.foldl_cons, ih]
    show x ∈ (if c.parent_crates = [] then saddL st.2 c.pubkey else st.2) ∨ _ ↔ _
    by_cases h : c.parent_crates = []
    · rw [if_pos h, mem_saddL]
      simp only [List.mem_cons]
      constructor
      · rintro ((hh | hh) | ⟨c', h1, h2, h3⟩)
        · exact Or.inl hh
        · exact Or.inr ⟨c, Or.inl rfl, hh.symm, h⟩
        · exact Or.inr ⟨c', Or.inr h1, h2, h3⟩
      · rintro (hh | ⟨c', h1 | h1, h2, h3⟩)
        · exact Or.inl (Or.inl hh)
        · subst h1
          exact Or.inl (Or.inr h2.symm)
        · exact Or.inr ⟨c', h1, h2, h3⟩
    · rw [if_neg h]
      simp only [List.mem_cons]
      constructor
      · rintro (hh | ⟨c', h1, h2, h3⟩)
        · exact Or.inl hh
        · exact Or.inr ⟨c', Or.inr h1, h2, h3⟩
      · rintro (hh | ⟨c', h1 | h1, h2, h3⟩)
        · exact Or.inl hh
        · subst h1
          exact absurd h3 h
        · exact Or.inr ⟨c', h1, h2, h3⟩

theorem buildIndex_roots_mem (crates : List CrateData) (x : String) :
    x ∈ (buildIndex crates).2 ↔
      ∃ c ∈ crates, c.pubkey = x ∧ c.parent_crates = [] := by
  rw [buildIndex, foldl_indexStep_roots_mem]
  simp

theorem foldl_indexStep_roots_nodup (crates : List CrateData) :
    ∀ (st : CrateMap × List String), st.2.Nodup →
      (crates.foldl indexStep st).2.Nodup := by
  induction crates with
  | nil => intro st h; exact h
  | cons c cs ih =>
    intro st h
    rw [List.foldl_cons]
    refine ih _ ?_
    show (if c.parent_crates = [] then saddL st.2 c.pubkey else st.2).Nodup
    by_cases hp : c.parent_crates = []
    · rw [if_pos hp]
      exact nodup_saddL st.2 c.pubkey h
    · rw [if_neg hp]
      exact h

theorem buildIndex_roots_nodup (crates : List CrateData) :
    (buildIndex crates).2.Nodup :=
  foldl_indexStep_roots_nodup crates ([], []) (by simp)

/-! ### Structure preservation through the passes -/

theorem aupd_map_lookup {α β : Type} (g : α → β) (f : α → α)
    (hf : ∀ a, g (f a) = g a) (m : List (String × α)) (k x : String) :
    (aget? (aupd m k f) x).map g = (aget? m x).map g := by
  by_cases h : x = k
  · subst h
    rw [aget?_aupd_self]
    cases aget? m x with
    | none => rfl
    | some a =>
      simp only [Option.map_some', Option.map_map]
      show some (g (f a)) = some (g a)
      rw [hf]
  · rw [aget?_aupd_other m k x f h]

theorem setDepth_struct (m : CrateMap) (c : String) (d : Nat) (x : String) :
    (aget? (setDepth m c d) x).map eraseDepth = (aget? m x).map eraseDepth :=
  aupd_map_lookup eraseDepth (fun n => { n with depth := d })
    (fun _ => rfl) m c x

theorem expandChildren_struct (cs : List String) (d : Nat) :
    ∀ q v m x, (aget? (expandChildren cs d q v m).2.2 x).map eraseDepth =
      (aget? m x).map eraseDepth := by
  induction cs with
  | nil => intro q v m x; rfl
  | cons c cs ih =>
    intro q v m x
    by_cases h : c ∈ akeys m ∧ c ∉ v
    · rw [expandChildren, if_pos h, ih, setDepth_struct]
    · rw [expandChildren, if_neg h, ih]

theorem bfsLoop_struct (q : List (String × Nat)) (v : List String)
    (m : CrateMap) :
    ∀ x, (aget? (bfsLoop q v m).2 x).map eraseDepth =
      (aget? m x).map eraseDepth := by
  induction q, v, m using bfsLoop.induct with
  | case1 v m =>
    intro x
    rw [bfsLoop]
  | case2 v m k d rest r ih =>
    intro x
    rw [bfsLoop]
    exact (ih x).trans (expandChildren_struct (childrenOf m k) d rest v m x)

theorem bfsLoop_akeys (q : List (String × Nat)) (v : List String)
    (m : CrateMap) : akeys (bfsLoop q v m).2 = akeys m := by
  induction q, v, m using bfsLoop.induct with
  | case1 v m => rw [bfsLoop]
  | case2 v m k d rest r ih =>
    rw [bfsLoop]
    exact ih.trans (expandChildren_akeys (childrenOf m k) d rest v m)

theorem seedRoots_struct (R : List String) (m : CrateMap) :
    ∀ x, (aget? (seedRoots R m).2.2 x).map eraseDepth =
      (aget? m x).map eraseDepth := by
  rw [seedRoots]
  suffices h : ∀ st : List (String × Nat) × List String × CrateMap,
      ∀ x, (aget? (R.foldl seedStep st).2.2 x).map eraseDepth =
        (aget? st.2.2 x).map eraseDepth from h ([], [], m)
  induction R with
  | nil => intro st x; rfl
  | cons r R ih =>
    intro st x
    rw [List.foldl_cons, ih]
    exact setDepth_struct st.2.2 r 0 x

theorem seedRoots_akeys (R : List String) (m : CrateMap) :
    akeys (seedRoots R m).2.2 = akeys m := by
  rw [seedRoots]
  suffices h : ∀ st : List (String × Nat) × List String × CrateMap,
      akeys (R.foldl seedStep st).2.2 = akeys st.2.2 from h ([], [], m)
  induction R with
  | nil => intro st; rfl
  | cons r R ih =>
    intro st
    rw [List.foldl_cons, ih]
    exact akeys_setDepth st.2.2 r 0

theorem fallbackStep_akeys (v : List String) (st : CrateMap × List String)
    (k : String) : akeys (fallbackStep v st k).1 = akeys st.1 := by
  rw [fallbackStep]
  by_cases hv : k ∈ v
  · rw [if_pos hv]
  · rw [if_neg hv]
    cases hm : aget? st.1 k with
    | none => rfl
    | some node =>
      by_cases hp : node.parent_crates = []
      · simp only [hp, if_pos]
        exact akeys_aupd st.1 k _
      · simp only [if_neg hp]
        cases (node.parent_crates.filterMap
            (fun p => (aget? st.1 p).map CrateNode.depth)).min? with
        | none => exact akeys_setDepth st.1 k 0
        | some dm => exact akeys_setDepth st.1 k (dm + 1)

theorem fallbackStep_proj (v : List String) (st : CrateMap × List String)
    (k : String) :
    ∀ x, (aget? (fallbackStep v st k).1 x).map projData =
      (aget? st.1 x).map projData := by
  intro x
  rw [fallbackStep]
  by_cases hv : k ∈ v
  · rw [if_pos hv]
  · rw [if_neg hv]
    cases hm : aget? st.1 k with
    | none => rfl
    | some node =>
      by_cases hp : node.parent_crates = []
      · simp only [hp, if_pos]
        exact aupd_map_lookup projData
          (fun n => { n with is_root := true, depth := 0 }) (fun _ => rfl)
          st.1 k x
      · simp only [if_neg hp]
        cases (node.parent_crates.filterMap
            (fun p => (aget? st.1 p).map CrateNode.depth)).min? with
        | none =>
          exact aupd_map_lookup projData (fun n => { n with depth := 0 })
            (fun _ => rfl) st.1 k x
        | some dm =>
          exact aupd_map_lookup projData (fun n => { n with depth := dm + 1 })
            (fun _ => rfl) st.1 k x

theorem fallbackPass_akeys (v : List String) (m : CrateMap)
    (roots : List String) : akeys (fallbackPass v m roots).1 = akeys m := by
  rw [fallbackPass]
  suffices h : ∀ (ks : List String) (st : CrateMap × List String),
      akeys (ks.foldl (fallbackStep v) st).1 = akeys st.1 from h (akeys m) (m, roots)
  intro ks
  induction ks with
  | nil => intro st; rfl
  | cons k ks ih =>
    intro st
    rw [List.foldl_cons, ih, fallbackStep_akeys]

theorem fallbackPass_proj (v : List String) (m : CrateMap)
    (roots : List String) :
    ∀ x, (aget? (fallbackPass v m roots).1 x).map projData =
      (aget? m x).map projData := by
  rw [fallbackPass]
  suffices h : ∀ (ks : List String) (st : CrateMap × List String),
      ∀ x, (aget? (ks.foldl (fallbackStep v) st).1 x).map projData =
        (aget? st.1 x).map projData from h (akeys m) (m, roots)
  intro ks
  induction ks with
  | nil => intro st x; rfl
  | cons k ks ih =>
    intro st x
    rw [List.foldl_cons, ih, fallbackStep_proj]

/-! ### The root-flag invariant and C8 -/

theorem rootInv_of_struct (m m' : CrateMap)
    (h : ∀ x, (aget? m' x).map eraseDepth = (aget? m x).map eraseDepth)
    (hm : RootInvB m) : RootInvB m' := by
  intro k n hk
  have hx := h k
  rw [hk] at hx
  cases hm2 : aget? m k with
  | none =>
    rw [hm2] at hx
    simp at hx
  | some n0 =>
    rw [hm2] at hx
    simp only [Option.map_some', Option.some.injEq] at hx
    have h1 : n.is_root = n0.is_root := by
      have hc := congrArg CrateNode.is_root hx
      exact hc
    have h2 : n.parent_crates = n0.parent_crates := by
      have hc := congrArg CrateNode.parent_crates hx
      exact hc
    rw [h1, h2]
    exact hm k n0 hm2

theorem buildIndex_rootInv (crates : List CrateData) :
    RootInvB (buildIndex crates).1 := by
  intro k n hk
  rw [buildIndex_lookup] at hk
  cases hf : findLast? crates k with
  | none =>
    rw [hf] at hk
    simp at hk
  | some c =>
    rw [hf] at hk
    simp only [Option.map_some', Option.some.injEq] at hk
    subst hk
    rfl

theorem fallbackStep_rootInv (v : List String) (st : CrateMap × List String)
    (k : String) (h : RootInvB st.1) : RootInvB (fallbackStep v st k).1 := by
  rw [fallbackStep]
  by_cases hv : k ∈ v
  · rw [if_pos hv]
    exact h
  · rw [if_neg hv]
    cases hm : aget? st.1 k with
    | none => exact h
    | some node =>
      by_cases hp : node.parent_crates = []
      · simp only [hp, if_pos]
        intro k' n' hk'
        by_cases hkk : k' = k
        · subst hkk
          rw [aget?_aupd_self, hm] at hk'
          simp only [Option.map_some', Option.some.injEq] at hk'
          subst hk'
          show true = decide (node.parent_crates = [])
          rw [hp]
          rfl
        · rw [aget?_aupd_other st.1 k k' _ hkk] at hk'
          exact h k' n' hk'
      · simp only [if_neg hp]
        cases (node.parent_crates.filterMap
            (fun p => (aget? st.1 p).map CrateNode.depth)).min? with
        | none =>
          exact rootInv_of_struct st.1 _ (setDepth_struct st.1 k 0) h
        | some dm =>
          exact rootInv_of_struct st.1 _ (setDepth_struct st.1 k (dm + 1)) h

theorem fallbackPass_rootInv (v : List String) (m : CrateMap)
    (roots : List String) (h : RootInvB m) :
    RootInvB (fallbackPass v m roots).1 := by
  rw [fallbackPass]
  suffices hh : ∀ (ks : List String) (st : CrateMap × List String),
      RootInvB st.1 → RootInvB ((ks.foldl (fallbackStep v) st)).1 from
    hh (akeys m) (m, roots) h
  intro ks
  induction ks with
  | nil => intro st h'; exact h'
  | cons k ks ih =>
    intro st h'
    rw [List.foldl_cons]
    exact ih _ (fallbackStep_rootInv v st k h')

theorem build_rootInv (crates : List CrateData) :
    RootInvB (build_supply_chain_graph crates).crates := by
  have h0 : RootInvB (buildIndex crates).1 := buildIndex_rootInv crates
  have h1 : RootInvB
      (seedRoots (buildIndex crates).2 (buildIndex crates).1).2.2 :=
    rootInv_of_struct _ _
      (seedRoots_struct (buildIndex crates).2 (buildIndex crates).1) h0
  have h2 : RootInvB (bfsPhase (buildIndex crates).1 (buildIndex crates).2).2 :=
    rootInv_of_struct _ _
      (bfsLoop_struct (seedRoots (buildIndex crates).2 (buildIndex crates).1).1
        (seedRoots (buildIndex crates).2 (buildIndex crates).1).2.1
        (seedRoots (buildIndex crates).2 (buildIndex crates).1).2.2) h1
  exact fallbackPass_rootInv _ _ _ h2

/-- **C8**: for every key of the built graph, the stored node's `is_root`
flag is `true` exactly when the node's own `parent_crates` list is empty.
The presence of the listed parents in the snapshot is assumed as in the
claim, though the implementation in fact guarantees the equivalence for
every key. -/
theorem c8_is_root_iff_no_parents (crates : List CrateData) (k : String)
    (node : CrateNode)
    (hget : aget? (build_supply_chain_graph crates).crates k = some node)
    (hpres : ∀ p ∈ node.parent_crates,
      p ∈ akeys (build_supply_chain_graph crates).crates) :
    node.is_root = true ↔ node.parent_crates = [] := by
  have h := build_rootInv crates k node hget
  constructor
  · intro hr
    rw [hr] at h
    exact of_decide_eq_true h.symm
  · intro hp
    rw [h, hp]
    rfl

unseal bfsLoop tracePaths in
/-- Witness for C8 at Scenario A, key `A`. -/
theorem c8_witness :
    (aget? (build_supply_chain_graph [recA, recB, recC]).crates "A" =
      some (mkNode recA)) ∧
    ((mkNode recA).is_root = true ↔ (mkNode recA).parent_crates = []) :=
  ⟨by decide,
   c8_is_root_iff_no_parents [recA, recB, recC] "A" (mkNode recA) (by decide)
     (by decide)⟩

/-! ### Lineage tracing lemmas -/

theorem tracePaths_visited (m : CrateMap) (k : String) (vp : List String)
    (h : k ∈ vp) : tracePaths m k vp = [] := by
  rw [tracePaths]
  exact dif_pos h

theorem tracePaths_none (m : CrateMap) (k : String) (vp : List String)
    (h : k ∉ vp) (hm : aget? m k = none) : tracePaths m k vp = [] := by
  rw [tracePaths, dif_neg h]
  split
  · rfl
  · next node heq =>
    rw [hm] at heq
    exact Option.noConfusion heq

theorem tracePaths_some (m : CrateMap) (k : String) (vp : List String)
    (node : CrateNode) (h : k ∉ vp) (hm : aget? m k = some node) :
    tracePaths m k vp =
      if node.is_root then [[k]]
      else if node.parent_crates = [] then [[k]]
      else if ((node.parent_crates.map (fun p =>
          ((tracePaths m p (k :: vp)).filter (fun pp => !pp.isEmpty)).map
            (fun pp => k :: pp))).flatten) = [] then [[k]]
      else (node.parent_crates.map (fun p =>
          ((tracePaths m p (k :: vp)).filter (fun pp => !pp.isEmpty)).map
            (fun pp => k :: pp))).flatten := by
  rw [tracePaths, dif_neg h]
  split
  · next heq =>
    rw [hm] at heq
    exact Option.noConfusion heq
  · next node' heq =>
    rw [hm] at heq
    injection heq with heq
    subst heq
    rfl

theorem tracePaths_shape (m : CrateMap) :
    ∀ (k : String) (vp : List String), ∀ p ∈ tracePaths m k vp,
      ∃ t, p = k :: t ∧ p.Nodup ∧ ∀ x ∈ p, x ∈ akeys m ∧ x ∉ vp := by
  intro k vp
  induction k, vp using tracePaths.induct m with
  | case1 k vp hv =>
    intro p hp
    rw [tracePaths_visited m k vp hv] at hp
    exact absurd hp (List.not_mem_nil p)
  | case2 k vp hv hm =>
    intro p hp
    rw [tracePaths_none m k vp hv hm] at hp
    exact absurd hp (List.not_mem_nil p)
  | case3 k vp hv node hm hr =>
    intro p hp
    rw [tracePaths_some m k vp node hv hm, if_pos hr,
      List.mem_singleton] at hp
    subst hp
    refine ⟨[], rfl, List.nodup_singleton k, ?_⟩
    intro x hx
    rw [List.mem_singleton] at hx
    subst hx
    exact ⟨aget?_mem _ _ _ hm, hv⟩
  | case4 k vp hv node hm hr hpar =>
    intro p hp
    rw [tracePaths_some m k vp node hv hm, if_neg hr, if_pos hpar,
      List.mem_singleton] at hp
    subst hp
    refine ⟨[], rfl, List.nodup_singleton k, ?_⟩
    intro x hx
    rw [List.mem_singleton] at hx
    subst hx
    exact ⟨aget?_mem _ _ _ hm, hv⟩
  | case5 k vp hv node hm hr hpar all hall ih =>
    intro p hp
    rw [tracePaths_some m k vp node hv hm, if_neg hr, if_neg hpar,
      if_pos hall, List.mem_singleton] at hp
    subst hp
    refine ⟨[], rfl, List.nodup_singleton k, ?_⟩
    intro x hx
    rw [List.mem_singleton] at hx
    subst hx
    exact ⟨aget?_mem _ _ _ hm, hv⟩
  | case6 k vp hv node hm hr hpar all hall ih =>
    intro p hp
    rw [tracePaths_some m k vp node hv hm, if_neg hr, if_neg hpar,
      if_neg hall] at hp
    rw [List.mem_flatten] at hp
    obtain ⟨l, hl, hpl⟩ := hp
    rw [List.mem_map] at hl
    obtain ⟨par, hpar', hleq⟩ := hl
    subst hleq
    rw [List.mem_map] at hpl
    obtain ⟨pp, hppmem, hppeq⟩ := hpl
    subst hppeq
    rw [List.mem_filter] at hppmem
    obtain ⟨hppmem, hppne⟩ := hppmem
    obtain ⟨t, hteq, hnd, hmem⟩ := ih par pp hppmem
    refine ⟨pp, rfl, ?_, ?_⟩
    · rw [List.nodup_cons]
      refine ⟨?_, hnd⟩
      intro hkpp
      exact (hmem k hkpp).2 (List.mem_cons_self k vp)
    · intro x hx
      rcases List.mem_cons.mp hx with hx | hx
      · subst hx
        exact ⟨aget?_mem _ _ _ hm, hv⟩
      · obtain ⟨hx1, hx2⟩ := hmem x hx
        refine ⟨hx1, ?_⟩
        intro hxvp
        exact hx2 (List.mem_cons_of_mem k hxvp)

theorem foldl_minBy_mem (ps : List (List String)) :
    ∀ acc : List String,
      (ps.foldl (fun best q => if q.length < best.length then q else best)
        acc) = acc ∨
      (ps.foldl (fun best q => if q.length < best.length then q else best)
        acc) ∈ ps := by
  induction ps with
  | nil => intro acc; exact Or.inl rfl
  | cons p ps ih =>
    intro acc
    rw [List.foldl_cons]
    by_cases hl : p.length < acc.length
    · rw [if_pos hl]
      rcases ih p with h | h
      · rw [h]
        exact Or.inr (List.mem_cons_self _ _)
      · exact Or.inr (List.mem_cons_of_mem _ h)
    · rw [if_neg hl]
      rcases ih acc with h | h
      · rw [h]
        exact Or.inl rfl
      · exact Or.inr (List.mem_cons_of_mem _ h)

theorem minByLen_mem (l : List (List String)) (p : List String)
    (h : minByLen l = some p) : p ∈ l := by
  cases l with
  | nil => exact Option.noConfusion h
  | cons p0 ps =>
    rw [minByLen] at h
    injection h with h
    rcases foldl_minBy_mem ps p0 with hh | hh
    · rw [← h, hh]
      exact List.mem_cons_self _ _
    · rw [← h]
      exact List.mem_cons_of_mem _ hh

theorem foldl_ainsert_lookup {α : Type} (f : String → α) :
    ∀ (ks : List String) (l0 : List (String × α)) (k : String),
      aget? (ks.foldl (fun l k' => ainsert l k' (f k')) l0) k =
        if k ∈ ks then some (f k) else aget? l0 k := by
  intro ks
  induction ks with
  | nil => intro l0 k; simp
  | cons k0 ks ih =>
    intro l0 k
    rw [List.foldl_cons, ih]
    by_cases hk : k ∈ ks
    · rw [if_pos hk, if_pos (List.mem_cons_of_mem _ hk)]
    · rw [if_neg hk]
      by_cases hk0 : k = k0
      · subst hk0
        rw [if_pos (List.mem_cons_self _ _), aget?_ainsert_self]
      · rw [if_neg (by
          simp only [List.mem_cons]
          rintro (h | h)
          · exact hk0 h
          · exact hk h)]
        exact aget?_ainsert_other l0 k0 k (f k0) hk0

theorem lineagePass_lookup (m : CrateMap) (k : String) :
    aget? (lineagePass m) k =
      if k ∈ akeys m then some (lineageFor m k) else none := by
  rw [lineagePass, foldl_ainsert_lookup (lineageFor m) (akeys m) [] k]
  by_cases h : k ∈ akeys m
  · rw [if_pos h, if_pos h]
  · rw [if_neg h, if_neg h]
    rfl

theorem foldl_ainsert_keys_mem {α : Type} (f : String → α) :
    ∀ (ks : List String) (l0 : List (String × α)) (x : String),
      (x ∈ akeys (ks.foldl (fun l k' => ainsert l k' (f k')) l0) ↔
        x ∈ akeys l0 ∨ x ∈ ks) := by
  intro ks
  induction ks with
  | nil => intro l0 x; simp
  | cons k0 ks ih =>
    intro l0 x
    rw [List.foldl_cons, ih, mem_akeys_ainsert]
    simp only [List.mem_cons]
    tauto

theorem foldl_ainsert_keys_nodup {α : Type} (f : String → α) :
    ∀ (ks : List String) (l0 : List (String × α)), (akeys l0).Nodup →
      (akeys (ks.foldl (fun l k' => ainsert l k' (f k')) l0)).Nodup := by
  intro ks
  induction ks with
  | nil => intro l0 h; exact h
  | cons k0 ks ih =>
    intro l0 h
    rw [List.foldl_cons]
    exact ih _ (akeys_nodup_ainsert l0 k0 (f k0) h)

theorem lineageFor_shape (m : CrateMap) (k : String) (hk : k ∈ akeys m) :
    ∃ t, lineageFor m k = k :: t ∧ (lineageFor m k).Nodup ∧
      ∀ x ∈ lineageFor m k, x ∈ akeys m := by
  rw [lineageFor]
  cases hmin : minByLen (tracePaths m k []) with
  | none =>
    refine ⟨[], rfl, List.nodup_singleton k, ?_⟩
    intro x hx
    rw [List.mem_singleton] at hx
    subst hx
    exact hk
  | some p =>
    have hp := minByLen_mem _ _ hmin
    obtain ⟨t, h1, h2, h3⟩ := tracePaths_shape m k [] p hp
    exact ⟨t, h1, h1 ▸ h2, fun x hx => (h3 x (h1 ▸ hx)).1⟩

/-! ### C10 -/

/-- **C10**: the lineages dictionary has exactly one entry per key of the
node map (duplicate-free keys ranging over exactly the node keys), and
every stored lineage is non-empty and starts with the queried key itself —
the path is stored node-first, walking toward an ancestor. -/
theorem c10_lineage_domain_and_head (crates : List CrateData) :
    (akeys (build_supply_chain_graph crates).lineages).Nodup ∧
    (∀ k, k ∈ akeys (build_supply_chain_graph crates).lineages ↔
      k ∈ akeys (build_supply_chain_graph crates).crates) ∧
    (∀ k p, aget? (build_supply_chain_graph crates).lineages k = some p →
      p ≠ [] ∧ p.head? = some k) := by
  refine ⟨?_, ?_, ?_⟩
  · exact foldl_ainsert_keys_nodup _ _ [] (by simp [akeys])
  · intro k
    show k ∈ akeys (lineagePass (build_supply_chain_graph crates).crates) ↔ _
    rw [lineagePass, foldl_ainsert_keys_mem]
    simp [akeys]
  · intro k p hp
    show p ≠ [] ∧ p.head? = some k
    have hl := lineagePass_lookup (build_supply_chain_graph crates).crates k
    have hp' : aget? (lineagePass (build_supply_chain_graph crates).crates) k =
        some p := hp
    rw [hl] at hp'
    by_cases hk : k ∈ akeys (build_supply_chain_graph crates).crates
    · rw [if_pos hk] at hp'
      injection hp' with hp'
      obtain ⟨t, h1, _, _⟩ := lineageFor_shape _ k hk
      rw [← hp', h1]
      exact ⟨List.cons_ne_nil _ _, rfl⟩
    · rw [if_neg hk] at hp'
      exact Option.noConfusion hp'

/-! ### C7 -/

/-- **C7**: the builder is total — on any finite input, including
duplicates, missing parents, and cyclic or inconsistent links, it produces
a graph (all functions here are terminating by construction), and the
backward lineage walk is bounded: every stored lineage is a non-empty,
duplicate-free path over snapshot keys, so its length never exceeds
`total_crates`. -/
theorem c7_lineages_bounded (crates : List CrateData) (k : String)
    (p : List String)
    (h : aget? (build_supply_chain_graph crates).lineages k = some p) :
    p ≠ [] ∧ p.Nodup ∧ p.length ≤ (build_supply_chain_graph crates).total_crates := by
  have hl := lineagePass_lookup (build_supply_chain_graph crates).crates k
  have hp' : aget? (lineagePass (build_supply_chain_graph crates).crates) k =
      some p := h
  rw [hl] at hp'
  by_cases hk : k ∈ akeys (build_supply_chain_graph crates).crates
  · rw [if_pos hk] at hp'
    injection hp' with hp'
    obtain ⟨t, h1, h2, h3⟩ := lineageFor_shape _ k hk
    rw [hp'] at h1 h2 h3
    refine ⟨by rw [h1]; exact List.cons_ne_nil _ _, h2, ?_⟩
    have hcard : p.length = p.toFinset.card :=
      (List.toFinset_card_of_nodup h2).symm
    have hsub : p.toFinset ⊆
        (akeys (build_supply_chain_graph crates).crates).toFinset := by
      intro x hx
      rw [List.mem_toFinset] at hx ⊢
      exact h3 x hx
    have hle := Finset.card_le_card hsub
    have hle2 := List.toFinset_card_le
      (l := akeys (build_supply_chain_graph crates).crates)
    show p.length ≤ (build_supply_chain_graph crates).crates.length
    have hlen : (akeys (build_supply_chain_graph crates).crates).length =
        (build_supply_chain_graph crates).crates.length := by
      rw [akeys, List.length_map]
    omega
  · rw [if_neg hk] at hp'
    exact Option.noConfusion hp'

unseal bfsLoop tracePaths in
/-- Witness for C7 on the cyclic two-record input. -/
theorem c7_witness :
    (aget? (build_supply_chain_graph [recF, recG]).lineages "F" =
      some ["F", "G"]) ∧
    ((["F", "G"] : List String) ≠ [] ∧ (["F", "G"] : List String).Nodup ∧
      (["F", "G"] : List String).length ≤
        (build_supply_chain_graph [recF, recG]).total_crates) :=
  ⟨by decide, c7_lineages_bounded [recF, recG] "F" ["F", "G"] (by decide)⟩

/-! ### C9 -/

theorem proj_of_struct {o1 o2 : Option CrateNode}
    (h : o1.map eraseDepth = o2.map eraseDepth) :
    o1.map projData = o2.map projData := by
  cases o1 with
  | none =>
    cases o2 with
    | none => rfl
    | some n => simp at h
  | some n =>
    cases o2 with
    | none => simp at h
    | some n0 =>
      simp only [Option.map_some', Option.some.injEq] at h ⊢
      have hc := congrArg projData h
      exact hc

theorem build_crates_proj (crates : List CrateData) (k : String) :
    (aget? (build_supply_chain_graph crates).crates k).map projData =
      findLast? crates k := by
  have h1 : (aget? (build_supply_chain_graph crates).crates k).map projData =
      (aget? (bfsPhase (buildIndex crates).1 (buildIndex crates).2).2 k).map
        projData :=
    fallbackPass_proj _ _ _ k
  have hseed := seedRoots_struct (buildIndex crates).2 (buildIndex crates).1 k
  have hbfs := bfsLoop_struct
    (seedRoots (buildIndex crates).2 (buildIndex crates).1).1
    (seedRoots (buildIndex crates).2 (buildIndex crates).1).2.1
    (seedRoots (buildIndex crates).2 (buildIndex crates).1).2.2 k
  have h2 := proj_of_struct (hbfs.trans hseed)
  have h2' : (aget? (bfsPhase (buildIndex crates).1 (buildIndex crates).2).2
      k).map projData = (aget? (buildIndex crates).1 k).map projData := h2
  rw [h1, h2', buildIndex_lookup]
  cases findLast? crates k with
  | none => rfl
  | some c =>
    simp only [Option.map_some']
    show some (projData (mkNode c)) = some c
    rfl

theorem build_akeys (crates : List CrateData) :
    akeys (build_supply_chain_graph crates).crates =
      akeys (buildIndex crates).1 := by
  show akeys (fallbackPass (bfsPhase (buildIndex crates).1 (buildIndex crates).2).1
      (bfsPhase (buildIndex crates).1 (buildIndex crates).2).2
      (buildIndex crates).2).1 = _
  rw [fallbackPass_akeys]
  show akeys (bfsLoop (seedRoots (buildIndex crates).2 (buildIndex crates).1).1
      (seedRoots (buildIndex crates).2 (buildIndex crates).1).2.1
      (seedRoots (buildIndex crates).2 (buildIndex crates).1).2.2).2 = _
  rw [bfsLoop_akeys, seedRoots_akeys]

/-- **C9**: on duplicate keys, the built graph stores exactly one node per
key (its key list is duplicate-free), the record content of the stored node
is the last occurrence of that key in input order, and `total_crates` is
the number of distinct keys of the input. -/
theorem c9_duplicates_last_wins (crates : List CrateData) :
    (∀ k, (aget? (build_supply_chain_graph crates).crates k).map projData =
      findLast? crates k) ∧
    (akeys (build_supply_chain_graph crates).crates).Nodup ∧
    (build_supply_chain_graph crates).total_crates =
      (crates.map CrateData.pubkey).toFinset.card := by
  refine ⟨build_crates_proj crates, ?_, ?_⟩
  · rw [build_akeys]
    exact buildIndex_keys_nodup crates
  · show (build_supply_chain_graph crates).crates.length = _
    have hlen : (build_supply_chain_graph crates).crates.length =
        (akeys (build_supply_chain_graph crates).crates).length := by
      rw [akeys, List.length_map]
    rw [hlen, build_akeys]
    have hnd := buildIndex_keys_nodup crates
    rw [← List.toFinset_card_of_nodup hnd]
    congr 1
    apply Finset.ext
    intro x
    rw [List.mem_toFinset, List.mem_toFinset, buildIndex_keys_mem,
      List.mem_map]

/-! ### What the BFS can visit -/

/-- A key listed in some stored node's `child_crates`. -/
def ChildMentioned (m : CrateMap) (x : String) : Prop :=
  ∃ u n, aget? m u = some n ∧ x ∈ n.child_crates

theorem childMentioned_of_struct (m m' : CrateMap)
    (h : ∀ y, (aget? m' y).map eraseDepth = (aget? m y).map eraseDepth) :
    ∀ x, ChildMentioned m' x → ChildMentioned m x := by
  rintro x ⟨u, n, hu, hx⟩
  have hy := h u
  rw [hu] at hy
  cases hm : aget? m u with
  | none =>
    rw [hm] at hy
    simp at hy
  | some n0 =>
    rw [hm] at hy
    simp only [Option.map_some', Option.some.injEq] at hy
    have hc : n.child_crates = n0.child_crates := by
      have hcc := congrArg CrateNode.child_crates hy
      exact hcc
    exact ⟨u, n0, hm, hc ▸ hx⟩

theorem expandChildren_visited_sub (cs : List String) (d : Nat) :
    ∀ q v m x, x ∈ (expandChildren cs d q v m).2.1 → x ∈ v ∨ x ∈ cs := by
  induction cs with
  | nil => intro q v m x hx; exact Or.inl hx
  | cons c cs ih =>
    intro q v m x hx
    by_cases h : c ∈ akeys m ∧ c ∉ v
    · rw [expandChildren, if_pos h] at hx
      rcases ih _ _ _ x hx with hh | hh
      · rcases List.mem_append.mp hh with hh | hh
        · exact Or.inl hh
        · rw [List.mem_singleton] at hh
          exact Or.inr (hh ▸ List.mem_cons_self c cs)
      · exact Or.inr (List.mem_cons_of_mem _ hh)
    · rw [expandChildren, if_neg h] at hx
      rcases ih _ _ _ x hx with hh | hh
      · exact Or.inl hh
      · exact Or.inr (List.mem_cons_of_mem _ hh)

theorem bfsLoop_visited_sub (q : List (String × Nat)) (v : List String)
    (m : CrateMap) :
    ∀ x, x ∈ (bfsLoop q v m).1 → x ∈ v ∨ ChildMentioned m x := by
  induction q, v, m using bfsLoop.induct with
  | case1 v m =>
    intro x hx
    rw [bfsLoop] at hx
    exact Or.inl hx
  | case2 v m k d rest r ih =>
    intro x hx
    rw [bfsLoop] at hx
    rcases ih x hx with hh | hh
    · rcases expandChildren_visited_sub (childrenOf m k) d rest v m x hh
        with h1 | h1
      · exact Or.inl h1
      · right
        rw [childrenOf] at h1
        cases hm : aget? m k with
        | none =>
          rw [hm] at h1
          simp at h1
        | some n =>
          rw [hm] at h1
          exact ⟨k, n, hm, by simpa using h1⟩
    · exact Or.inr (childMentioned_of_struct m r.2.2
        (fun y => expandChildren_struct (childrenOf m k) d rest v m y) x hh)

theorem seedRoots_visited_sub (R : List String) (m : CrateMap) :
    ∀ x, x ∈ (seedRoots R m).2.1 → x ∈ R := by
  rw [seedRoots]
  suffices h : ∀ (S : List String)
      (st : List (String × Nat) × List String × CrateMap), ∀ x,
      x ∈ (S.foldl seedStep st).2.1 → x ∈ st.2.1 ∨ x ∈ S from fun x hx =>
    (h R ([], [], m) x hx).resolve_left (by simp)
  intro S
  induction S with
  | nil => intro st x hx; exact Or.inl hx
  | cons r S ih =>
    intro st x hx
    rw [List.foldl_cons] at hx
    rcases ih _ x hx with hh | hh
    · rcases (mem_saddL st.2.1 r x).mp hh with h1 | h1
      · exact Or.inl h1
      · exact Or.inr (h1 ▸ List.mem_cons_self r S)
    · exact Or.inr (List.mem_cons_of_mem _ hh)

theorem bfsPhase_visited_sub (m : CrateMap) (R : List String) :
    ∀ x, x ∈ (bfsPhase m R).1 → x ∈ R ∨ ChildMentioned m x := by
  intro x hx
  have hsub := bfsLoop_visited_sub (seedRoots R m).1 (seedRoots R m).2.1
    (seedRoots R m).2.2 x hx
  rcases hsub with hh | hh
  · exact Or.inl (seedRoots_visited_sub R m x hh)
  · exact Or.inr (childMentioned_of_struct m (seedRoots R m).2.2
      (seedRoots_struct R m) x hh)

/-! ### The fallback pass at one key -/

theorem fallbackStep_lookup_other (v : List String)
    (st : CrateMap × List String) (k' k : String) (hne : k' ≠ k) :
    aget? (fallbackStep v st k').1 k = aget? st.1 k := by
  rw [fallbackStep]
  by_cases hv : k' ∈ v
  · rw [if_pos hv]
  · rw [if_neg hv]
    cases hm : aget? st.1 k' with
    | none => rfl
    | some node =>
      by_cases hp : node.parent_crates = []
      · simp only [hp, if_pos]
        exact aget?_aupd_other st.1 k' k _ (fun h => hne h.symm)
      · simp only [if_neg hp]
        cases (node.parent_crates.filterMap
            (fun p => (aget? st.1 p).map CrateNode.depth)).min? with
        | none => exact aget?_aupd_other st.1 k' k _ (fun h => hne h.symm)
        | some dm => exact aget?_aupd_other st.1 k' k _ (fun h => hne h.symm)

theorem fallbackStep_roots_other (v : List String)
    (st : CrateMap × List String) (k' k : String) (hne : k' ≠ k) :
    (k ∈ (fallbackStep v st k').2 ↔ k ∈ st.2) := by
  rw [fallbackStep]
  by_cases hv : k' ∈ v
  · rw [if_pos hv]
  · rw [if_neg hv]
    cases hm : aget? st.1 k' with
    | none => exact Iff.rfl
    | some node =>
      by_cases hp : node.parent_crates = []
      · simp only [hp, if_pos]
        rw [mem_saddL]
        constructor
        · rintro (h | h)
          · exact h
          · exact absurd h.symm hne
        · exact Or.inl
      · simp only [if_neg hp]
        cases (node.parent_crates.filterMap
            (fun p => (aget? st.1 p).map CrateNode.depth)).min? with
        | none => exact Iff.rfl
        | some dm => exact Iff.rfl

theorem foldl_fallbackStep_akeys (v : List String) :
    ∀ (ks : List String) (st : CrateMap × List String),
      akeys (ks.foldl (fallbackStep v) st).1 = akeys st.1 := by
  intro ks
  induction ks with
  | nil => intro st; rfl
  | cons k0 ks ih =>
    intro st
    rw [List.foldl_cons, ih, fallbackStep_akeys]

theorem foldl_fallback_other (v : List String) :
    ∀ (ks : List String) (st : CrateMap × List String) (k : String), k ∉ ks →
      aget? ((ks.foldl (fallbackStep v) st)).1 k = aget? st.1 k ∧
      (k ∈ ((ks.foldl (fallbackStep v) st)).2 ↔ k ∈ st.2) := by
  intro ks
  induction ks with
  | nil => intro st k _; exact ⟨rfl, Iff.rfl⟩
  | cons k0 ks ih =>
    intro st k h
    have hne : k0 ≠ k := by
      intro hh
      exact h (hh ▸ List.mem_cons_self k0 ks)
    have hkks : k ∉ ks := fun hh => h (List.mem_cons_of_mem _ hh)
    rw [List.foldl_cons]
    obtain ⟨h1, h2⟩ := ih (fallbackStep v st k0) k hkks
    exact ⟨h1.trans (fallbackStep_lookup_other v st k0 k hne),
      h2.trans (fallbackStep_roots_other v st k0 k hne)⟩

theorem filterMap_depth_none (m : CrateMap) (ps : List String)
    (h : ∀ p ∈ ps, p ∉ akeys m) :
    ps.filterMap (fun p => (aget? m p).map CrateNode.depth) = [] := by
  induction ps with
  | nil => rfl
  | cons p ps ih =>
    rw [List.filterMap_cons]
    have hp : aget? m p = none :=
      (aget?_eq_none m p).mpr (h p (List.mem_cons_self p ps))
    rw [hp]
    exact ih (fun x hx => h x (List.mem_cons_of_mem _ hx))

theorem fallbackPass_at_absent (v : List String) (m : CrateMap)
    (roots : List String) (k : String) (node : CrateNode)
    (hnodup : (akeys m).Nodup)
    (hk : aget? m k = some node)
    (hv : k ∉ v)
    (hpar : node.parent_crates ≠ [])
    (habs : ∀ p ∈ node.parent_crates, p ∉ akeys m) :
    aget? (fallbackPass v m roots).1 k = some (eraseDepth node) ∧
    ((k ∈ (fallbackPass v m roots).2) ↔ k ∈ roots) := by
  rw [fallbackPass]
  have hkmem : k ∈ akeys m := aget?_mem m k node hk
  obtain ⟨pre, post, hsplit⟩ := List.append_of_mem hkmem
  rw [hsplit, List.foldl_append, List.foldl_cons]
  have hnd2 := hnodup
  rw [hsplit] at hnd2
  have hkpre : k ∉ pre := by
    intro hh
    rw [List.nodup_append] at hnd2
    exact hnd2.2.2 hh (List.mem_cons_self k post)
  have hkpost : k ∉ post := by
    rw [List.nodup_append, List.nodup_cons] at hnd2
    exact hnd2.2.1.1
  obtain ⟨h1l, h1r⟩ := foldl_fallback_other v pre (m, roots) k hkpre
  have hks : akeys (pre.foldl (fallbackStep v) (m, roots)).1 = akeys m :=
    foldl_fallbackStep_akeys v pre (m, roots)
  have hsc : aget? (pre.foldl (fallbackStep v) (m, roots)).1 k = some node :=
    h1l.trans hk
  have hstep : fallbackStep v (pre.foldl (fallbackStep v) (m, roots)) k =
      (setDepth (pre.foldl (fallbackStep v) (m, roots)).1 k 0,
       (pre.foldl (fallbackStep v) (m, roots)).2) := by
    rw [fallbackStep, if_neg hv]
    split
    · next heq =>
      rw [hsc] at heq
      exact Option.noConfusion heq
    · next node' heq =>
      rw [hsc] at heq
      injection heq with heq
      subst heq
      rw [if_neg hpar]
      have hds : node.parent_crates.filterMap
          (fun p => (aget? (pre.foldl (fallbackStep v) (m, roots)).1 p).map
            CrateNode.depth) = [] := by
        apply filterMap_depth_none
        intro p hp
        rw [hks]
        exact habs p hp
      rw [hds]
      rfl
  rw [hstep]
  obtain ⟨h2l, h2r⟩ := foldl_fallback_other v post
    (setDepth (pre.foldl (fallbackStep v) (m, roots)).1 k 0,
     (pre.foldl (fallbackStep v) (m, roots)).2) k hkpost
  constructor
  · rw [h2l]
    show aget? (setDepth (pre.foldl (fallbackStep v) (m, roots)).1 k 0) k =
      some (eraseDepth node)
    rw [setDepth, aget?_aupd_self, hsc]
    rfl
  · rw [h2r]
    exact h1r

theorem bfsPhase_akeys (m : CrateMap) (R : List String) :
    akeys (bfsPhase m R).2 = akeys m := by
  show akeys (bfsLoop (seedRoots R m).1 (seedRoots R m).2.1
    (seedRoots R m).2.2).2 = akeys m
  rw [bfsLoop_akeys, seedRoots_akeys]

/-- **C3** (amended): a record whose parents list is non-empty but entirely
absent from the snapshot, and which no record lists as a child, keeps its
record content and gets `depth = 0` from the fallback, but it is **not**
promoted to a synthetic root: `is_root` stays `false` and the key is not
added to the root set. -/
theorem c3_amended_orphan_depth_zero_not_root (crates : List CrateData)
    (k : String) (c : CrateData)
    (hnodup : (crates.map CrateData.pubkey).Nodup)
    (hfind : findLast? crates k = some c)
    (hpar : c.parent_crates ≠ [])
    (habs : ∀ p ∈ c.parent_crates, ∀ c' ∈ crates, c'.pubkey ≠ p)
    (hchild : ∀ c' ∈ crates, k ∉ c'.child_crates) :
    aget? (build_supply_chain_graph crates).crates k = some (mkNode c) ∧
    (mkNode c).is_root = false ∧ (mkNode c).depth = 0 ∧
    k ∉ (build_supply_chain_graph crates).root_crates := by
  obtain ⟨hcmem, hcpk⟩ := findLast?_spec crates k c hfind
  have hinj : ∀ c1 ∈ crates, ∀ c2 ∈ crates, c1.pubkey = c2.pubkey → c1 = c2 :=
    fun c1 h1 c2 h2 he => List.inj_on_of_nodup_map hnodup h1 h2 he
  have hkR : k ∉ (buildIndex crates).2 := by
    intro hh
    obtain ⟨c2, hc2, hpk2, hpar2⟩ := (buildIndex_roots_mem crates k).mp hh
    have hc2c : c2 = c := hinj c2 hc2 c hcmem (by rw [hpk2, hcpk])
    rw [hc2c] at hpar2
    exact hpar hpar2
  have hkv : k ∉ (bfsPhase (buildIndex crates).1 (buildIndex crates).2).1 := by
    intro hh
    rcases bfsPhase_visited_sub (buildIndex crates).1 (buildIndex crates).2 k hh
      with h | ⟨u, n, hu, hx⟩
    · exact hkR h
    · rw [buildIndex_lookup] at hu
      cases hf : findLast? crates u with
      | none =>
        rw [hf] at hu
        exact Option.noConfusion hu
      | some c' =>
        rw [hf] at hu
        injection hu with hu
        obtain ⟨hc'mem, _⟩ := findLast?_spec crates u c' hf
        have hkc' : k ∈ c'.child_crates := by
          rw [← hu] at hx
          exact hx
        exact hchild c' hc'mem hkc'
  have hk0 : aget? (buildIndex crates).1 k = some (mkNode c) := by
    rw [buildIndex_lookup, hfind]
    rfl
  have hseed := seedRoots_struct (buildIndex crates).2 (buildIndex crates).1 k
  have hbfs := bfsLoop_struct
    (seedRoots (buildIndex crates).2 (buildIndex crates).1).1
    (seedRoots (buildIndex crates).2 (buildIndex crates).1).2.1
    (seedRoots (buildIndex crates).2 (buildIndex crates).1).2.2 k
  have hstruct : (aget?
      (bfsPhase (buildIndex crates).1 (buildIndex crates).2).2 k).map
        eraseDepth = (aget? (buildIndex crates).1 k).map eraseDepth :=
    hbfs.trans hseed
  rw [hk0] at hstruct
  cases hm2 : aget? (bfsPhase (buildIndex crates).1 (buildIndex crates).2).2 k
    with
  | none =>
    rw [hm2] at hstruct
    simp at hstruct
  | some X =>
    rw [hm2] at hstruct
    simp only [Option.map_some', Option.some.injEq] at hstruct
    have hXpar : X.parent_crates = c.parent_crates := by
      have hc2 := congrArg CrateNode.parent_crates hstruct
      exact hc2
    have hker : akeys (bfsPhase (buildIndex crates).1 (buildIndex crates).2).2 =
        akeys (buildIndex crates).1 := bfsPhase_akeys _ _
    have hndk : (akeys
        (bfsPhase (buildIndex crates).1 (buildIndex crates).2).2).Nodup := by
      rw [hker]
      exact buildIndex_keys_nodup crates
    have habs2 : ∀ p ∈ X.parent_crates,
        p ∉ akeys (bfsPhase (buildIndex crates).1 (buildIndex crates).2).2 := by
      intro p hp hmem
      rw [hXpar] at hp
      rw [hker] at hmem
      obtain ⟨c', hc', hpk'⟩ := (buildIndex_keys_mem crates p).mp hmem
      exact habs p hp c' hc' hpk'
    obtain ⟨hfinal, hroots⟩ := fallbackPass_at_absent
      (bfsPhase (buildIndex crates).1 (buildIndex crates).2).1
      (bfsPhase (buildIndex crates).1 (buildIndex crates).2).2
      (buildIndex crates).2 k X hndk hm2 hkv
      (by rw [hXpar]; exact hpar) habs2
    refine ⟨?_, ?_, rfl, ?_⟩
    · show aget? (fallbackPass
        (bfsPhase (buildIndex crates).1 (buildIndex crates).2).1
        (bfsPhase (buildIndex crates).1 (buildIndex crates).2).2
        (buildIndex crates).2).1 k = some (mkNode c)
      rw [hfinal, hstruct]
      rfl
    · show decide (c.parent_crates = []) = false
      exact decide_eq_false hpar
    · show k ∉ (fallbackPass
        (bfsPhase (buildIndex crates).1 (buildIndex crates).2).1
        (bfsPhase (buildIndex crates).1 (buildIndex crates).2).2
        (buildIndex crates).2).2
      intro hh
      exact hkR (hroots.mp hh)

unseal bfsLoop tracePaths in
/-- Witness for the amended C3 on scenario C. -/
theorem c3_amended_witness :
    (findLast? [recE] "E" = some recE) ∧
    (aget? (build_supply_chain_graph [recE]).crates "E" =
        some (mkNode recE) ∧
      (mkNode recE).is_root = false ∧ (mkNode recE).depth = 0 ∧
      "E" ∉ (build_supply_chain_graph [recE]).root_crates) :=
  ⟨by decide,
   c3_amended_orphan_depth_zero_not_root [recE] "E" recE (by decide)
     (by decide) (by decide) (by decide) (by decide)⟩

/-! ### BFS correctness: depths are shortest forward distances -/

/-- `d` is the least number of forward hops from the root set to `k`. -/
def IsLeastFrom (m : CrateMap) (R : List String) (k : String) (d : Nat) :
    Prop :=
  FromRoots m R k d ∧ ∀ n, FromRoots m R k n → d ≤ n

theorem akeys_mem_of_struct (m m0 : CrateMap)
    (h : ∀ x, (aget? m x).map eraseDepth = (aget? m0 x).map eraseDepth)
    (x : String) : x ∈ akeys m ↔ x ∈ akeys m0 := by
  constructor
  · intro hx
    obtain ⟨n, hn⟩ := mem_akeys_exists m x hx
    have hh := h x
    rw [hn] at hh
    cases hm : aget? m0 x with
    | none =>
      rw [hm] at hh
      simp at hh
    | some n0 => exact aget?_mem m0 x n0 hm
  · intro hx
    obtain ⟨n, hn⟩ := mem_akeys_exists m0 x hx
    have hh := h x
    rw [hn] at hh
    cases hm : aget? m x with
    | none =>
      rw [hm] at hh
      simp at hh
    | some n0 => exact aget?_mem m x n0 hm

theorem childrenOf_of_struct (m m0 : CrateMap)
    (h : ∀ x, (aget? m x).map eraseDepth = (aget? m0 x).map eraseDepth)
    (x : String) : childrenOf m x = childrenOf m0 x := by
  rw [childrenOf, childrenOf]
  have hh := h x
  cases hm : aget? m x with
  | none =>
    rw [hm] at hh
    cases hm0 : aget? m0 x with
    | none => rfl
    | some n0 =>
      rw [hm0] at hh
      simp at hh
  | some n =>
    rw [hm] at hh
    cases hm0 : aget? m0 x with
    | none =>
      rw [hm0] at hh
      simp at hh
    | some n0 =>
      rw [hm0] at hh
      simp only [Option.map_some', Option.some.injEq] at hh
      have hc := congrArg CrateNode.child_crates hh
      exact hc

/-- Invariant of the BFS loop, relative to the fixed reference map `m0`
(the map as seeded, whose stored structure never changes) and root set
`R`. -/
structure BFSInv (m0 : CrateMap) (R : List String)
    (q : List (String × Nat)) (v : List String) (m : CrateMap) : Prop where
  struct : ∀ x, (aget? m x).map eraseDepth = (aget? m0 x).map eraseDepth
  rootsv : ∀ r ∈ R, r ∈ v
  qmem : ∀ e ∈ q, e.1 ∈ v ∧
    (aget? m e.1).map CrateNode.depth = some e.2 ∧ IsLeastFrom m0 R e.1 e.2
  vdist : ∀ x ∈ v, ∃ node, aget? m x = some node ∧
    IsLeastFrom m0 R x node.depth
  sorted : List.Sorted (· ≤ ·) (q.map Prod.snd)
  twoLevel : ∀ e ∈ q, ∀ e' ∈ q, e.2 ≤ e'.2 + 1
  expanded : ∀ u ∈ v, (∀ e ∈ q, e.1 ≠ u) → ∀ c, c ∈ childrenOf m0 u →
    c ∈ akeys m0 → c ∈ v

/-- Any node whose distance from the roots is at most the minimum depth in
the queue has already been visited. -/
theorem inv_reach_visited (m0 : CrateMap) (R : List String)
    (q : List (String × Nat)) (v : List String) (m : CrateMap)
    (inv : BFSInv m0 R q v m) (d0 : Nat) (hq : ∀ e ∈ q, d0 ≤ e.2) :
    ∀ n, n ≤ d0 → ∀ k, FromRoots m0 R k n → k ∈ v := by
  intro n
  induction n using Nat.strong_induction_on with
  | _ n ih =>
    intro hn k hk
    cases hk with
    | base r hr => exact inv.rootsv _ hr
    | step u c n' hu hc hck =>
      have hu_v : u ∈ v := ih n' (by omega) (by omega) u hu
      have hu_notq : ∀ e ∈ q, e.1 ≠ u := by
        intro e he heq
        obtain ⟨_, _, hleast⟩ := inv.qmem e he
        have hle := hleast.2 n' (by rw [heq]; exact hu)
        have hge := hq e he
        omega
      exact inv.expanded u hu_v hu_notq _ hc hck

/-- With an empty queue the visited set is closed under forward edges, so
it contains everything reachable from the roots. -/
theorem inv_empty_reach (m0 : CrateMap) (R : List String) (v : List String)
    (m : CrateMap) (inv : BFSInv m0 R [] v m) :
    ∀ n k, FromRoots m0 R k n → k ∈ v := by
  intro n k h
  induction h with
  | base r hr => exact inv.rootsv r hr
  | step u c n' hu hc hck ihh =>
    exact inv.expanded u ihh (fun e he => absurd he (List.not_mem_nil e))
      c hc hck

/-- Everything one pop-and-expand step does, described by the list `news`
of newly enqueued `(key, depth)` entries. -/
structure ExpandSpec (cs : List String) (d : Nat) (q : List (String × Nat))
    (v : List String) (m : CrateMap) (news : List (String × Nat)) :
    Prop where
  qeq : (expandChildren cs d q v m).1 = q ++ news
  veq : (expandChildren cs d q v m).2.1 = v ++ news.map Prod.fst
  newsProp : ∀ e ∈ news, e.2 = d + 1 ∧ e.1 ∈ cs ∧ e.1 ∈ akeys m ∧ e.1 ∉ v
  newsNodup : (news.map Prod.fst).Nodup
  complete : ∀ c ∈ cs, c ∈ akeys m → c ∈ v ++ news.map Prod.fst
  lookOld : ∀ x, x ∉ news.map Prod.fst →
    aget? (expandChildren cs d q v m).2.2 x = aget? m x
  lookNew : ∀ x ∈ news.map Prod.fst,
    (aget? (expandChildren cs d q v m).2.2 x).map CrateNode.depth =
      some (d + 1)

theorem expandChildren_spec (cs : List String) (d : Nat) :
    ∀ q v m, ∃ news, ExpandSpec cs d q v m news := by
  induction cs with
  | nil =>
    intro q v m
    refine ⟨[], ?_, ?_, ?_, ?_, ?_, ?_, ?_⟩
    · simp [expandChildren]
    · simp [expandChildren]
    · intro e he
      exact absurd he (List.not_mem_nil e)
    · exact List.nodup_nil
    · intro c hc
      exact absurd hc (List.not_mem_nil c)
    · intro x _
      rfl
    · intro x hx
      exact absurd hx (List.not_mem_nil x)
  | cons c cs ih =>
    intro q v m
    by_cases h : c ∈ akeys m ∧ c ∉ v
    · obtain ⟨news', sp⟩ := ih (q ++ [(c, d + 1)]) (v ++ [c])
        (setDepth m c (d + 1))
      have hcnotnews : c ∉ news'.map Prod.fst := by
        intro hc
        rw [List.mem_map] at hc
        obtain ⟨e, he, heq⟩ := hc
        have hprop := (sp.newsProp e he).2.2.2
        rw [heq] at hprop
        exact hprop (by simp)
      have hkeys : akeys (setDepth m c (d + 1)) = akeys m :=
        akeys_setDepth m c (d + 1)
      have hexp : expandChildren (c :: cs) d q v m =
          expandChildren cs d (q ++ [(c, d + 1)]) (v ++ [c])
            (setDepth m c (d + 1)) := by
        rw [expandChildren, if_pos h]
      refine ⟨(c, d + 1) :: news', ?_, ?_, ?_, ?_, ?_, ?_, ?_⟩
      · rw [hexp, sp.qeq, List.append_assoc]
        rfl
      · rw [hexp, sp.veq, List.append_assoc]
        rfl
      · intro e he
        rcases List.mem_cons.mp he with he | he
        · subst he
          exact ⟨rfl, List.mem_cons_self _ _, h.1, h.2⟩
        · obtain ⟨h1, h2, h3, h4⟩ := sp.newsProp e he
          refine ⟨h1, List.mem_cons_of_mem _ h2, ?_, ?_⟩
          · rw [hkeys] at h3
            exact h3
          · intro hv
            exact h4 (by simp [hv])
      · rw [List.map_cons]
        exact List.nodup_cons.mpr ⟨hcnotnews, sp.newsNodup⟩
      · intro c' hc' hmem
        rcases List.mem_cons.mp hc' with hc' | hc'
        · subst hc'
          rw [List.map_cons]
          simp
        · have hm2 : c' ∈ akeys (setDepth m c (d + 1)) := by
            rw [hkeys]
            exact hmem
          have hcomp := sp.complete c' hc' hm2
          rw [List.map_cons]
          rcases List.mem_append.mp hcomp with hh | hh
          · rcases List.mem_append.mp hh with hh | hh
            · exact List.mem_append.mpr (Or.inl hh)
            · rw [List.mem_singleton] at hh
              subst hh
              exact List.mem_append.mpr (Or.inr (by simp))
          · exact List.mem_append.mpr (Or.inr (List.mem_cons_of_mem _ hh))
      · intro x hx
        rw [List.map_cons, List.mem_cons] at hx
        push_neg at hx
        rw [hexp, sp.lookOld x hx.2, setDepth]
        exact aget?_aupd_other m c x _ hx.1
      · intro x hx
        rw [List.map_cons] at hx
        rcases List.mem_cons.mp hx with hx | hx
        · subst hx
          rw [hexp, sp.lookOld x hcnotnews, setDepth, aget?_aupd_self]
          obtain ⟨nx, hnx⟩ := mem_akeys_exists m x h.1
          rw [hnx]
          rfl
        · rw [hexp]
          exact sp.lookNew x hx
    · obtain ⟨news, sp⟩ := ih q v m
      have hexp : expandChildren (c :: cs) d q v m =
          expandChildren cs d q v m := by
        rw [expandChildren, if_neg h]
      refine ⟨news, ?_, ?_, ?_, ?_, ?_, ?_, ?_⟩
      · rw [hexp, sp.qeq]
      · rw [hexp, sp.veq]
      · intro e he
        obtain ⟨h1, h2, h3, h4⟩ := sp.newsProp e he
        exact ⟨h1, List.mem_cons_of_mem _ h2, h3, h4⟩
      · exact sp.newsNodup
      · intro c' hc' hmem
        rcases List.mem_cons.mp hc' with hc' | hc'
        · subst hc'
          have hcv : c' ∈ v := by
            by_contra hcv
            exact h ⟨hmem, hcv⟩
          exact List.mem_append.mpr (Or.inl hcv)
        · exact sp.complete c' hc' hmem
      · intro x hx
        rw [hexp]
        exact sp.lookOld x hx
      · intro x hx
        rw [hexp]
        exact sp.lookNew x hx

theorem sorted_of_const (c : Nat) :
    ∀ l : List Nat, (∀ b ∈ l, b = c) → List.Sorted (· ≤ ·) l := by
  intro l
  induction l with
  | nil => intro _; exact List.sorted_nil
  | cons a l ih =>
    intro h
    rw [List.sorted_cons]
    refine ⟨?_, ih (fun b hb => h b (List.mem_cons_of_mem _ hb))⟩
    intro b hb
    rw [h a (List.mem_cons_self _ _), h b (List.mem_cons_of_mem _ hb)]

/-- One pop-and-expand step of the BFS preserves the invariant. -/
theorem inv_step (m0 : CrateMap) (R : List String) (k : String) (d : Nat)
    (rest : List (String × Nat)) (v : List String) (m : CrateMap)
    (inv : BFSInv m0 R ((k, d) :: rest) v m) :
    BFSInv m0 R (expandChildren (childrenOf m k) d rest v m).1
      (expandChildren (childrenOf m k) d rest v m).2.1
      (expandChildren (childrenOf m k) d rest v m).2.2 := by
  obtain ⟨hkv, hkdepth, hkleast⟩ :=
    inv.qmem (k, d) (List.mem_cons_self _ _)
  have hs := inv.sorted
  rw [List.map_cons] at hs
  have hrest_ge : ∀ e ∈ rest, d ≤ e.2 := by
    intro e he
    exact (List.sorted_cons.mp hs).1 e.2 (List.mem_map_of_mem Prod.snd he)
  have hq_ge : ∀ e ∈ (k, d) :: rest, d ≤ e.2 := by
    intro e he
    rcases List.mem_cons.mp he with he | he
    · rw [he]
    · exact hrest_ge e he
  have hrest_le : ∀ e ∈ rest, e.2 ≤ d + 1 := by
    intro e he
    exact inv.twoLevel e (List.mem_cons_of_mem _ he) (k, d)
      (List.mem_cons_self _ _)
  obtain ⟨news, sp⟩ := expandChildren_spec (childrenOf m k) d rest v m
  have hchild_eq : childrenOf m k = childrenOf m0 k :=
    childrenOf_of_struct m m0 inv.struct k
  have hakeys : ∀ x, x ∈ akeys m ↔ x ∈ akeys m0 :=
    akeys_mem_of_struct m m0 inv.struct
  have hnews_notv : ∀ x ∈ news.map Prod.fst, x ∉ v := by
    intro x hx
    rw [List.mem_map] at hx
    obtain ⟨e, he, heq⟩ := hx
    rw [← heq]
    exact (sp.newsProp e he).2.2.2
  have hnews_least : ∀ e ∈ news, IsLeastFrom m0 R e.1 (d + 1) := by
    intro e he
    obtain ⟨h1, h2, h3, h4⟩ := sp.newsProp e he
    constructor
    · refine FromRoots.step k e.1 d hkleast.1 ?_ ?_
      · rw [← hchild_eq]
        exact h2
      · exact (hakeys e.1).mp h3
    · intro nn hnn
      by_contra hlt
      push_neg at hlt
      have hv2 : e.1 ∈ v :=
        inv_reach_visited m0 R ((k, d) :: rest) v m inv d hq_ge nn
          (by omega) e.1 hnn
      exact h4 hv2
  constructor
  · intro x
    exact (expandChildren_struct (childrenOf m k) d rest v m x).trans
      (inv.struct x)
  · intro r hr
    rw [sp.veq]
    exact List.mem_append.mpr (Or.inl (inv.rootsv r hr))
  · intro e he
    rw [sp.qeq] at he
    rcases List.mem_append.mp he with he | he
    · obtain ⟨h1, h2, h3⟩ := inv.qmem e (List.mem_cons_of_mem _ he)
      have hnotnew : e.1 ∉ news.map Prod.fst := by
        intro hh
        exact hnews_notv e.1 hh h1
      refine ⟨?_, ?_, h3⟩
      · rw [sp.veq]
        exact List.mem_append.mpr (Or.inl h1)
      · rw [sp.lookOld e.1 hnotnew]
        exact h2
    · have hmem : e.1 ∈ news.map Prod.fst := List.mem_map_of_mem _ he
      refine ⟨?_, ?_, ?_⟩
      · rw [sp.veq]
        exact List.mem_append.mpr (Or.inr hmem)
      · rw [(sp.newsProp e he).1]
        exact sp.lookNew e.1 hmem
      · have hl := hnews_least e he
        rw [(sp.newsProp e he).1]
        exact hl
  · intro x hx
    rw [sp.veq] at hx
    rcases List.mem_append.mp hx with hx | hx
    · obtain ⟨node, hn, hl⟩ := inv.vdist x hx
      have hnotnew : x ∉ news.map Prod.fst := fun hh => hnews_notv x hh hx
      exact ⟨node, by rw [sp.lookOld x hnotnew]; exact hn, hl⟩
    · have hdep := sp.lookNew x hx
      cases hm2 : aget? (expandChildren (childrenOf m k) d rest v m).2.2 x
        with
      | none =>
        rw [hm2] at hdep
        exact Option.noConfusion hdep
      | some node =>
        rw [hm2] at hdep
        simp only [Option.map_some', Option.some.injEq] at hdep
        refine ⟨node, rfl, ?_⟩
        rw [List.mem_map] at hx
        obtain ⟨e, he, heq⟩ := hx
        have hl := hnews_least e he
        rw [heq] at hl
        rw [hdep]
        exact hl
  · rw [sp.qeq, List.map_append]
    apply List.pairwise_append.mpr
    refine ⟨(List.sorted_cons.mp hs).2, ?_, ?_⟩
    · refine sorted_of_const (d + 1) _ ?_
      intro b hb
      rw [List.mem_map] at hb
      obtain ⟨e, he, heq⟩ := hb
      rw [← heq]
      exact (sp.newsProp e he).1
    · intro a ha b hb
      rw [List.mem_map] at ha hb
      obtain ⟨e, he, heqa⟩ := ha
      obtain ⟨e', he', heqb⟩ := hb
      have h1 := hrest_le e he
      have h2 := (sp.newsProp e' he').1
      omega
  · intro e he e' he'
    rw [sp.qeq] at he he'
    rcases List.mem_append.mp he with he | he <;>
      rcases List.mem_append.mp he' with he' | he'
    · exact inv.twoLevel e (List.mem_cons_of_mem _ he) e'
        (List.mem_cons_of_mem _ he')
    · have h1 := hrest_le e he
      have h2 := (sp.newsProp e' he').1
      omega
    · have h1 := (sp.newsProp e he).1
      have h2 := hrest_ge e' he'
      omega
    · have h1 := (sp.newsProp e he).1
      have h2 := (sp.newsProp e' he').1
      omega
  · intro u hu hnotq c' hc' hck'
    rw [sp.veq] at hu
    rcases List.mem_append.mp hu with hu | hu
    · by_cases huk : u = k
      · subst huk
        rw [← hchild_eq] at hc'
        rw [sp.veq]
        exact sp.complete c' hc' ((hakeys c').mpr hck')
      · have hold : ∀ e ∈ (k, d) :: rest, e.1 ≠ u := by
          intro e he
          rcases List.mem_cons.mp he with he | he
          · rw [he]
            intro hh
            exact huk hh.symm
          · intro hh
            apply hnotq e
            · rw [sp.qeq]
              exact List.mem_append.mpr (Or.inl he)
            · exact hh
        have hv2 := inv.expanded u hu hold c' hc' hck'
        rw [sp.veq]
        exact List.mem_append.mpr (Or.inl hv2)
    · rw [List.mem_map] at hu
      obtain ⟨e, he, heq⟩ := hu
      exact absurd heq (hnotq e (by
        rw [sp.qeq]
        exact List.mem_append.mpr (Or.inr he)))

theorem bfsLoop_inv (m0 : CrateMap) (R : List String) :
    ∀ (q : List (String × Nat)) (v : List String) (m : CrateMap),
      BFSInv m0 R q v m →
      BFSInv m0 R [] (bfsLoop q v m).1 (bfsLoop q v m).2 := by
  intro q v m
  induction q, v, m using bfsLoop.induct with
  | case1 v m =>
    intro inv
    rw [bfsLoop]
    exact inv
  | case2 v m k d rest r ih =>
    intro inv
    rw [bfsLoop]
    exact ih (inv_step m0 R k d rest v m inv)

theorem foldl_seed_queue :
    ∀ (R : List String)
      (st : List (String × Nat) × List String × CrateMap),
      (R.foldl seedStep st).1 = st.1 ++ R.map (fun r => (r, 0)) := by
  intro R
  induction R with
  | nil => intro st; simp
  | cons r R ih =>
    intro st
    rw [List.foldl_cons, ih]
    show (st.1 ++ [(r, 0)]) ++ R.map (fun r => (r, 0)) = _
    rw [List.append_assoc]
    rfl

theorem foldl_seed_visited :
    ∀ (R : List String)
      (st : List (String × Nat) × List String × CrateMap) (x : String),
      (x ∈ (R.foldl seedStep st).2.1 ↔ x ∈ st.2.1 ∨ x ∈ R) := by
  intro R
  induction R with
  | nil => intro st x; simp
  | cons r R ih =>
    intro st x
    rw [List.foldl_cons, ih]
    show x ∈ saddL st.2.1 r ∨ _ ↔ _
    rw [mem_saddL]
    simp only [List.mem_cons]
    tauto

theorem foldl_seed_lookup (m : CrateMap)
    (hd : ∀ x n, aget? m x = some n → n.depth = 0) :
    ∀ (R : List String)
      (st : List (String × Nat) × List String × CrateMap),
      (∀ x, aget? st.2.2 x = aget? m x) →
      ∀ x, aget? (R.foldl seedStep st).2.2 x = aget? m x := by
  intro R
  induction R with
  | nil => intro st h x; exact h x
  | cons r R ih =>
    intro st h x
    rw [List.foldl_cons]
    refine ih _ ?_ x
    intro y
    show aget? (setDepth st.2.2 r 0) y = aget? m y
    by_cases hy : y = r
    · subst hy
      rw [setDepth, aget?_aupd_self, h y]
      cases hm : aget? m y with
      | none => rfl
      | some n =>
        have h0 := hd y n hm
        simp only [Option.map_some', Option.some.injEq]
        cases n
        simp only [CrateNode.mk.injEq]
        simp_all
    · rw [setDepth, aget?_aupd_other st.2.2 r y _ hy]
      exact h y

/-- The invariant holds right after seeding, provided every stored depth
is still the placeholder 0 (as after the first pass) and the root list is
a duplicate-free subset of the keys. -/
theorem seed_inv (m0 : CrateMap) (R : List String)
    (hR : ∀ r ∈ R, r ∈ akeys m0)
    (hd : ∀ x n, aget? m0 x = some n → n.depth = 0) :
    BFSInv m0 R (seedRoots R m0).1 (seedRoots R m0).2.1
      (seedRoots R m0).2.2 := by
  have hq : (seedRoots R m0).1 = R.map (fun r => (r, 0)) := by
    rw [seedRoots, foldl_seed_queue]
    rfl
  have hv : ∀ x, x ∈ (seedRoots R m0).2.1 ↔ x ∈ R := by
    intro x
    rw [seedRoots, foldl_seed_visited]
    simp
  have hm : ∀ x, aget? (seedRoots R m0).2.2 x = aget? m0 x := by
    intro x
    rw [seedRoots]
    exact foldl_seed_lookup m0 hd R ([], [], m0) (fun y => rfl) x
  have hleast0 : ∀ r ∈ R, IsLeastFrom m0 R r 0 :=
    fun r hr => ⟨FromRoots.base r hr, fun n _ => Nat.zero_le n⟩
  constructor
  · intro x
    rw [hm x]
  · intro r hr
    exact (hv r).mpr hr
  · intro e he
    rw [hq, List.mem_map] at he
    obtain ⟨r, hr, heq⟩ := he
    subst heq
    refine ⟨(hv r).mpr hr, ?_, hleast0 r hr⟩
    rw [hm r]
    obtain ⟨n, hn⟩ := mem_akeys_exists m0 r (hR r hr)
    rw [hn]
    simp only [Option.map_some', Option.some.injEq]
    exact hd r n hn
  · intro x hx
    have hxR := (hv x).mp hx
    obtain ⟨n, hn⟩ := mem_akeys_exists m0 x (hR x hxR)
    refine ⟨n, by rw [hm x]; exact hn, ?_⟩
    rw [hd x n hn]
    exact hleast0 x hxR
  · rw [hq]
    refine sorted_of_const 0 _ ?_
    intro b hb
    rw [List.map_map, List.mem_map] at hb
    obtain ⟨r, _, heq⟩ := hb
    exact heq.symm
  · intro e he e' he'
    rw [hq, List.mem_map] at he
    obtain ⟨r, _, heq⟩ := he
    rw [← heq]
    exact Nat.zero_le _
  · intro u hu hnotq c hc hck
    exfalso
    have huR := (hv u).mp hu
    refine hnotq (u, 0) ?_ rfl
    rw [hq, List.mem_map]
    exact ⟨u, huR, rfl⟩

/-- `IsLeastFrom` values are unique. -/
theorem isLeastFrom_unique (m0 : CrateMap) (R : List String) (k : String)
    (d1 d2 : Nat) (h1 : IsLeastFrom m0 R k d1) (h2 : IsLeastFrom m0 R k d2) :
    d1 = d2 :=
  Nat.le_antisymm (h1.2 d2 h2.1) (h2.2 d1 h1.1)

/-- Final specification of the whole BFS pass: the visited set is exactly
the set of keys forward-reachable from the roots, structure is preserved,
and every visited key's stored depth is the least hop count from the root
set. -/
theorem bfsPhase_spec (m0 : CrateMap) (R : List String)
    (hR : ∀ r ∈ R, r ∈ akeys m0)
    (hd : ∀ x n, aget? m0 x = some n → n.depth = 0) :
    (∀ x, x ∈ (bfsPhase m0 R).1 ↔ ∃ n, FromRoots m0 R x n) ∧
    (∀ x, (aget? (bfsPhase m0 R).2 x).map eraseDepth =
      (aget? m0 x).map eraseDepth) ∧
    (∀ x ∈ (bfsPhase m0 R).1, ∃ node, aget? (bfsPhase m0 R).2 x = some node ∧
      IsLeastFrom m0 R x node.depth) := by
  have hinv := bfsLoop_inv m0 R (seedRoots R m0).1 (seedRoots R m0).2.1
    (seedRoots R m0).2.2 (seed_inv m0 R hR hd)
  refine ⟨?_, hinv.struct, hinv.vdist⟩
  intro x
  constructor
  · intro hx
    obtain ⟨node, _, hl⟩ := hinv.vdist x hx
    exact ⟨node.depth, hl.1⟩
  · rintro ⟨n, hn⟩
    exact inv_empty_reach m0 R _ _ hinv n x hn

/-! ### From forward BFS distances to backward parent distances -/

theorem parentsOf_of_struct (m m0 : CrateMap)
    (h : ∀ x, (aget? m x).map eraseDepth = (aget? m0 x).map eraseDepth)
    (x : String) : parentsOf m x = parentsOf m0 x := by
  rw [parentsOf, parentsOf]
  have hh := h x
  cases hm : aget? m x with
  | none =>
    rw [hm] at hh
    cases hm0 : aget? m0 x with
    | none => rfl
    | some n0 =>
      rw [hm0] at hh
      simp at hh
  | some n =>
    rw [hm] at hh
    cases hm0 : aget? m0 x with
    | none =>
      rw [hm0] at hh
      simp at hh
    | some n0 =>
      rw [hm0] at hh
      simp only [Option.map_some', Option.some.injEq] at hh
      have hc := congrArg CrateNode.parent_crates hh
      exact hc

theorem reachesRoot_mem (m : CrateMap) (k : String) (n : Nat)
    (h : ReachesRoot m k n) : k ∈ akeys m := by
  cases h with
  | root k1 hk hp => exact hk
  | step k1 p n' hk hp hr => exact hk

theorem reachesRoot_struct_iff (m m0 : CrateMap)
    (h : ∀ x, (aget? m x).map eraseDepth = (aget? m0 x).map eraseDepth) :
    ∀ k n, ReachesRoot m k n ↔ ReachesRoot m0 k n := by
  have hmem := akeys_mem_of_struct m m0 h
  have hpar := parentsOf_of_struct m m0 h
  intro k n
  constructor
  · intro hr
    induction hr with
    | root k1 hk hp =>
      exact ReachesRoot.root _ ((hmem _).mp hk) (by rw [← hpar]; exact hp)
    | step k1 p n' hk hp hr ih =>
      exact ReachesRoot.step _ p n' ((hmem _).mp hk)
        (by rw [← hpar]; exact hp) ih
  · intro hr
    induction hr with
    | root k1 hk hp =>
      exact ReachesRoot.root _ ((hmem _).mpr hk) (by rw [hpar]; exact hp)
    | step k1 p n' hk hp hr ih =>
      exact ReachesRoot.step _ p n' ((hmem _).mpr hk)
        (by rw [hpar]; exact hp) ih

theorem findLast?_unique (crates : List CrateData)
    (hnodup : (crates.map CrateData.pubkey).Nodup) :
    ∀ c ∈ crates, findLast? crates c.pubkey = some c := by
  induction crates with
  | nil => intro c hc; exact absurd hc (List.not_mem_nil c)
  | cons c0 cs ih =>
    intro c hc
    rw [List.map_cons, List.nodup_cons] at hnodup
    rcases List.mem_cons.mp hc with hc | hc
    · subst hc
      rw [findLast?]
      have hnone : findLast? cs c.pubkey = none := by
        rw [findLast?_eq_none]
        intro c' hc' heq
        exact hnodup.1 (heq ▸ List.mem_map_of_mem CrateData.pubkey hc')
      rw [hnone, if_pos rfl]
    · rw [findLast?, ih hnodup.2 c hc]

theorem buildIndex_node (crates : List CrateData)
    (hnodup : (crates.map CrateData.pubkey).Nodup) (c : CrateData)
    (hc : c ∈ crates) :
    aget? (buildIndex crates).1 c.pubkey = some (mkNode c) := by
  rw [buildIndex_lookup, findLast?_unique crates hnodup c hc]
  rfl

theorem buildIndex_parentsOf (crates : List CrateData)
    (hnodup : (crates.map CrateData.pubkey).Nodup) (c : CrateData)
    (hc : c ∈ crates) :
    parentsOf (buildIndex crates).1 c.pubkey = c.parent_crates := by
  rw [parentsOf, buildIndex_node crates hnodup c hc]
  rfl

theorem buildIndex_childrenOf (crates : List CrateData)
    (hnodup : (crates.map CrateData.pubkey).Nodup) (c : CrateData)
    (hc : c ∈ crates) :
    childrenOf (buildIndex crates).1 c.pubkey = c.child_crates := by
  rw [childrenOf, buildIndex_node crates hnodup c hc]
  rfl

theorem buildIndex_roots_iff (crates : List CrateData)
    (hnodup : (crates.map CrateData.pubkey).Nodup) (r : String) :
    r ∈ (buildIndex crates).2 ↔
      r ∈ akeys (buildIndex crates).1 ∧
        parentsOf (buildIndex crates).1 r = [] := by
  rw [buildIndex_roots_mem]
  constructor
  · rintro ⟨c, hc, hpk, hpar⟩
    subst hpk
    refine ⟨(buildIndex_keys_mem crates c.pubkey).mpr ⟨c, hc, rfl⟩, ?_⟩
    rw [buildIndex_parentsOf crates hnodup c hc]
    exact hpar
  · rintro ⟨hk, hpar⟩
    obtain ⟨c, hc, hpk⟩ := (buildIndex_keys_mem crates r).mp hk
    subst hpk
    rw [buildIndex_parentsOf crates hnodup c hc] at hpar
    exact ⟨c, hc, rfl, hpar⟩

/-- Under distinct keys and mutually consistent parent/child links, the
backward parent relation inside the index is the reverse of the forward
child relation. -/
theorem buildIndex_edge_iff (crates : List CrateData)
    (hnodup : (crates.map CrateData.pubkey).Nodup)
    (hcons : ∀ c ∈ crates, ∀ c' ∈ crates,
      (c'.pubkey ∈ c.child_crates ↔ c.pubkey ∈ c'.parent_crates))
    (u c : String) (hu : u ∈ akeys (buildIndex crates).1)
    (hc : c ∈ akeys (buildIndex crates).1) :
    c ∈ childrenOf (buildIndex crates).1 u ↔
      u ∈ parentsOf (buildIndex crates).1 c := by
  obtain ⟨cu, hcu, hpku⟩ := (buildIndex_keys_mem crates u).mp hu
  obtain ⟨cc, hcc, hpkc⟩ := (buildIndex_keys_mem crates c).mp hc
  subst hpku
  subst hpkc
  rw [buildIndex_childrenOf crates hnodup cu hcu,
    buildIndex_parentsOf crates hnodup cc hcc]
  exact hcons cu hcu cc hcc

/-- With every parent present and ranks decreasing along parents, every
key of the index reaches a parentless record backward through parents. -/
theorem reaches_of_rank (crates : List CrateData) (rank : String → Nat)
    (hnodup : (crates.map CrateData.pubkey).Nodup)
    (hpres : ∀ c ∈ crates, ∀ p ∈ c.parent_crates,
      p ∈ crates.map CrateData.pubkey)
    (hrank : ∀ c ∈ crates, ∀ p ∈ c.parent_crates, rank p < rank c.pubkey) :
    ∀ (b : Nat) (k : String), rank k ≤ b → k ∈ akeys (buildIndex crates).1 →
      ∃ n, ReachesRoot (buildIndex crates).1 k n := by
  intro b
  induction b with
  | zero =>
    intro k hb hk
    obtain ⟨c, hc, hpk⟩ := (buildIndex_keys_mem crates k).mp hk
    subst hpk
    cases hpc : c.parent_crates with
    | nil =>
      refine ⟨0, ReachesRoot.root _ hk ?_⟩
      rw [buildIndex_parentsOf crates hnodup c hc, hpc]
    | cons p ps =>
      have hlt := hrank c hc p (by rw [hpc]; exact List.mem_cons_self _ _)
      omega
  | succ b ih =>
    intro k hb hk
    obtain ⟨c, hc, hpk⟩ := (buildIndex_keys_mem crates k).mp hk
    subst hpk
    cases hpc : c.parent_crates with
    | nil =>
      refine ⟨0, ReachesRoot.root _ hk ?_⟩
      rw [buildIndex_parentsOf crates hnodup c hc, hpc]
    | cons p ps =>
      have hpmem : p ∈ c.parent_crates := by
        rw [hpc]
        exact List.mem_cons_self _ _
      have hlt := hrank c hc p hpmem
      have hpk : p ∈ akeys (buildIndex crates).1 := by
        rw [buildIndex_keys_mem]
        obtain ⟨c', hc', hpk'⟩ := List.mem_map.mp (hpres c hc p hpmem)
        exact ⟨c', hc', hpk'⟩
      obtain ⟨n, hn⟩ := ih p (by omega) hpk
      refine ⟨n + 1, ReachesRoot.step _ p n hk ?_ hn⟩
      rw [buildIndex_parentsOf crates hnodup c hc]
      exact hpmem

/-- The two notions of distance agree: forward hops from the root set and
backward hops to a parentless record. -/
theorem fromRoots_iff_reachesRoot (crates : List CrateData)
    (hnodup : (crates.map CrateData.pubkey).Nodup)
    (hcons : ∀ c ∈ crates, ∀ c' ∈ crates,
      (c'.pubkey ∈ c.child_crates ↔ c.pubkey ∈ c'.parent_crates)) :
    ∀ k n, FromRoots (buildIndex crates).1 (buildIndex crates).2 k n ↔
      ReachesRoot (buildIndex crates).1 k n := by
  intro k n
  constructor
  · intro h
    induction h with
    | base r hr =>
      obtain ⟨hk, hp⟩ := (buildIndex_roots_iff crates hnodup r).mp hr
      exact ReachesRoot.root _ hk hp
    | step u c n' hu hc hck ih =>
      have humem : u ∈ akeys (buildIndex crates).1 := reachesRoot_mem _ _ _ ih
      have hedge := (buildIndex_edge_iff crates hnodup hcons u _ humem
        hck).mp hc
      exact ReachesRoot.step _ u n' hck hedge ih
  · intro h
    induction h with
    | root k1 hk hp =>
      exact FromRoots.base _ ((buildIndex_roots_iff crates hnodup _).mpr
        ⟨hk, hp⟩)
    | step k1 p n' hk hp hr ih =>
      have hpmem : p ∈ akeys (buildIndex crates).1 := reachesRoot_mem _ _ _ hr
      have hedge := (buildIndex_edge_iff crates hnodup hcons p _ hpmem
        hk).mpr hp
      exact FromRoots.step p _ n' ih hedge hk

theorem foldl_fallback_id (v : List String) :
    ∀ (ks : List String) (st : CrateMap × List String),
      (∀ k ∈ ks, k ∈ v) → ks.foldl (fallbackStep v) st = st := by
  intro ks
  induction ks with
  | nil => intro st _; rfl
  | cons k ks ih =>
    intro st h
    rw [List.foldl_cons]
    have hstep : fallbackStep v st k = st := by
      rw [fallbackStep, if_pos (h k (List.mem_cons_self _ _))]
    rw [hstep]
    exact ih st (fun x hx => h x (List.mem_cons_of_mem _ hx))

theorem fallbackPass_id (v : List String) (m : CrateMap)
    (roots : List String) (h : ∀ k ∈ akeys m, k ∈ v) :
    fallbackPass v m roots = (m, roots) := by
  rw [fallbackPass]
  exact foldl_fallback_id v (akeys m) (m, roots) h

/-! ### C2 -/

/-- **C2** (amended): for inputs with distinct keys, every listed parent
present, child links consistent with parent links, and acyclic parent
references (witnessed by a rank function strictly decreasing along
parents), the depth stored for every key is exactly the true shortest
number of hops from that key to a root along `parent_crates` edges. -/
theorem c2_amended_depth_is_shortest (crates : List CrateData)
    (rank : String → Nat)
    (hnodup : (crates.map CrateData.pubkey).Nodup)
    (hpres : ∀ c ∈ crates, ∀ p ∈ c.parent_crates,
      p ∈ crates.map CrateData.pubkey)
    (hcons : ∀ c ∈ crates, ∀ c' ∈ crates,
      (c'.pubkey ∈ c.child_crates ↔ c.pubkey ∈ c'.parent_crates))
    (hrank : ∀ c ∈ crates, ∀ p ∈ c.parent_crates, rank p < rank c.pubkey) :
    ∀ k node, aget? (build_supply_chain_graph crates).crates k = some node →
      ReachesRoot (build_supply_chain_graph crates).crates k node.depth ∧
      ∀ n, ReachesRoot (build_supply_chain_graph crates).crates k n →
        node.depth ≤ n := by
  have hRsub : ∀ r ∈ (buildIndex crates).2,
      r ∈ akeys (buildIndex crates).1 := by
    intro r hr
    exact ((buildIndex_roots_iff crates hnodup r).mp hr).1
  have hd0 : ∀ x n, aget? (buildIndex crates).1 x = some n → n.depth = 0 := by
    intro x n hx
    rw [buildIndex_lookup] at hx
    cases hf : findLast? crates x with
    | none =>
      rw [hf] at hx
      exact Option.noConfusion hx
    | some c =>
      rw [hf] at hx
      injection hx with hx
      rw [← hx]
      rfl
  obtain ⟨hvis, hstruct, hdist⟩ := bfsPhase_spec (buildIndex crates).1
    (buildIndex crates).2 hRsub hd0
  have hall : ∀ x ∈ akeys (buildIndex crates).1,
      x ∈ (bfsPhase (buildIndex crates).1 (buildIndex crates).2).1 := by
    intro x hx
    rw [hvis x]
    obtain ⟨n, hn⟩ := reaches_of_rank crates rank hnodup hpres hrank
      (rank x) x (Nat.le_refl _) hx
    exact ⟨n, (fromRoots_iff_reachesRoot crates hnodup hcons x n).mpr hn⟩
  have hkeys2 : akeys
      (bfsPhase (buildIndex crates).1 (buildIndex crates).2).2 =
      akeys (buildIndex crates).1 := bfsPhase_akeys _ _
  have hid := fallbackPass_id
    (bfsPhase (buildIndex crates).1 (buildIndex crates).2).1
    (bfsPhase (buildIndex crates).1 (buildIndex crates).2).2
    (buildIndex crates).2
    (by
      intro x hx
      rw [hkeys2] at hx
      exact hall x hx)
  have hcr : (build_supply_chain_graph crates).crates =
      (bfsPhase (buildIndex crates).1 (buildIndex crates).2).2 := by
    show (fallbackPass
      (bfsPhase (buildIndex crates).1 (buildIndex crates).2).1
      (bfsPhase (buildIndex crates).1 (buildIndex crates).2).2
      (buildIndex crates).2).1 = _
    rw [hid]
  intro k node hget
  rw [hcr] at hget
  have hk2 : k ∈ akeys
      (bfsPhase (buildIndex crates).1 (buildIndex crates).2).2 :=
    aget?_mem _ k node hget
  rw [hkeys2] at hk2
  have hkv := hall k hk2
  obtain ⟨node', hn', hl⟩ := hdist k hkv
  have hnode : node' = node := by
    rw [hget] at hn'
    injection hn' with h
    exact h.symm
  rw [hnode] at hl
  have hiff := fromRoots_iff_reachesRoot crates hnodup hcons
  have hstructiff := reachesRoot_struct_iff
    (bfsPhase (buildIndex crates).1 (buildIndex crates).2).2
    (buildIndex crates).1 hstruct
  constructor
  · rw [hcr]
    exact (hstructiff k node.depth).mpr ((hiff k node.depth).mp hl.1)
  · intro n hn
    rw [hcr] at hn
    exact hl.2 n ((hiff k n).mpr ((hstructiff k n).mp hn))

unseal bfsLoop tracePaths in
/-- Witness for the amended C2 on Scenario A with an explicit rank. -/
theorem c2_amended_witness :
    (aget? (build_supply_chain_graph [recA, recB, recC]).crates "C" =
      some { mkNode recC with depth := 2 }) ∧
    (ReachesRoot (build_supply_chain_graph [recA, recB, recC]).crates "C"
        ({ mkNode recC with depth := 2 } : CrateNode).depth ∧
      ∀ n, ReachesRoot (build_supply_chain_graph [recA, recB, recC]).crates
        "C" n → ({ mkNode recC with depth := 2 } : CrateNode).depth ≤ n) :=
  ⟨by decide,
   c2_amended_depth_is_shortest [recA, recB, recC]
     (fun k => if k = "A" then 0 else if k = "B" then 1 else 2)
     (by decide) (by decide) (by decide) (by decide)
     "C" { mkNode recC with depth := 2 } (by decide)⟩

/-! ### Order-independence ingredients -/

theorem findLast?_perm (l1 l2 : List CrateData) (hperm : l1.Perm l2)
    (hnodup : (l1.map CrateData.pubkey).Nodup) (k : String) :
    findLast? l1 k = findLast? l2 k := by
  have hnodup2 : (l2.map CrateData.pubkey).Nodup :=
    ((hperm.map CrateData.pubkey).nodup_iff).mp hnodup
  cases hf : findLast? l1 k with
  | some c =>
    obtain ⟨hc, hpk⟩ := findLast?_spec l1 k c hf
    have hc2 : c ∈ l2 := hperm.mem_iff.mp hc
    rw [← hpk]
    exact (findLast?_unique l2 hnodup2 c hc2).symm
  | none =>
    rw [findLast?_eq_none] at hf
    symm
    rw [findLast?_eq_none]
    intro c hc
    exact hf c (hperm.mem_iff.mpr hc)

theorem buildIndex_lookup_perm (l1 l2 : List CrateData) (hperm : l1.Perm l2)
    (hnodup : (l1.map CrateData.pubkey).Nodup) (k : String) :
    aget? (buildIndex l1).1 k = aget? (buildIndex l2).1 k := by
  rw [buildIndex_lookup, buildIndex_lookup, findLast?_perm l1 l2 hperm hnodup]

theorem akeys_mem_of_lookup_eq {α : Type} (mA mB : List (String × α))
    (hlook : ∀ x, aget? mA x = aget? mB x) (x : String) :
    x ∈ akeys mA ↔ x ∈ akeys mB := by
  constructor
  · intro hx
    obtain ⟨v, hv⟩ := mem_akeys_exists mA x hx
    exact aget?_mem mB x v (by rw [← hlook x]; exact hv)
  · intro hx
    obtain ⟨v, hv⟩ := mem_akeys_exists mB x hx
    exact aget?_mem mA x v (by rw [hlook x]; exact hv)

theorem fromRoots_congr (mA mB : CrateMap) (RA RB : List String)
    (hlook : ∀ x, aget? mA x = aget? mB x)
    (hroots : ∀ x, x ∈ RA ↔ x ∈ RB) :
    ∀ k n, FromRoots mA RA k n → FromRoots mB RB k n := by
  intro k n h
  induction h with
  | base r hr => exact FromRoots.base r ((hroots r).mp hr)
  | step u c n' hu hc hck ih =>
    refine FromRoots.step u c n' ih ?_ ?_
    · rw [childrenOf] at hc ⊢
      rw [← hlook u]
      exact hc
    · obtain ⟨v, hv⟩ := mem_akeys_exists mA c hck
      exact aget?_mem mB c v (by rw [← hlook c]; exact hv)

theorem crateNode_eq_of_eraseDepth (a b : CrateNode)
    (h : eraseDepth a = eraseDepth b) (hd : a.depth = b.depth) : a = b := by
  cases a
  cases b
  simp only [eraseDepth, CrateNode.mk.injEq] at h ⊢
  simp_all

/-- One strong-induction layer of lookup-extensionality for the lineage
tracer. -/
theorem tracePaths_ext_aux (mA mB : CrateMap)
    (hlook : ∀ x, aget? mA x = aget? mB x) :
    ∀ (N : Nat) (k : String) (vp : List String),
      unvisCount (akeys mA) vp ≤ N →
      tracePaths mA k vp = tracePaths mB k vp := by
  intro N
  induction N with
  | zero =>
    intro k vp hN
    by_cases hv : k ∈ vp
    · rw [tracePaths_visited mA k vp hv, tracePaths_visited mB k vp hv]
    · cases hm : aget? mA k with
      | none =>
        rw [tracePaths_none mA k vp hv hm,
          tracePaths_none mB k vp hv (by rw [← hlook k]; exact hm)]
      | some node =>
        exfalso
        have hkk : k ∈ akeys mA := aget?_mem mA k node hm
        have hpos := unvisCount_cons_lt (akeys mA) vp k hkk hv
        omega
  | succ N ih =>
    intro k vp hN
    by_cases hv : k ∈ vp
    · rw [tracePaths_visited mA k vp hv, tracePaths_visited mB k vp hv]
    · cases hm : aget? mA k with
      | none =>
        rw [tracePaths_none mA k vp hv hm,
          tracePaths_none mB k vp hv (by rw [← hlook k]; exact hm)]
      | some node =>
        have hmB : aget? mB k = some node := by
          rw [← hlook k]
          exact hm
        have hkk : k ∈ akeys mA := aget?_mem mA k node hm
        have hlt := unvisCount_cons_lt (akeys mA) vp k hkk hv
        have hrec : ∀ p, tracePaths mA p (k :: vp) = tracePaths mB p (k :: vp) :=
          fun p => ih p (k :: vp) (by omega)
        rw [tracePaths_some mA k vp node hv hm,
          tracePaths_some mB k vp node hv hmB]
        have hmap : node.parent_crates.map (fun p =>
            ((tracePaths mA p (k :: vp)).filter (fun pp => !pp.isEmpty)).map
              (fun pp => k :: pp)) =
          node.parent_crates.map (fun p =>
            ((tracePaths mB p (k :: vp)).filter (fun pp => !pp.isEmpty)).map
              (fun pp => k :: pp)) :=
          List.map_congr_left (fun p _ => by rw [hrec p])
        rw [hmap]

theorem tracePaths_ext (mA mB : CrateMap)
    (hlook : ∀ x, aget? mA x = aget? mB x) (k : String) (vp : List String) :
    tracePaths mA k vp = tracePaths mB k vp :=
  tracePaths_ext_aux mA mB hlook (unvisCount (akeys mA) vp) k vp
    (Nat.le_refl _)

theorem lineageFor_ext (mA mB : CrateMap)
    (hlook : ∀ x, aget? mA x = aget? mB x) (k : String) :
    lineageFor mA k = lineageFor mB k := by
  rw [lineageFor, lineageFor, tracePaths_ext mA mB hlook]

theorem lineagePass_ext (mA mB : CrateMap)
    (hlook : ∀ x, aget? mA x = aget? mB x) (k : String) :
    aget? (lineagePass mA) k = aget? (lineagePass mB) k := by
  rw [lineagePass_lookup, lineagePass_lookup]
  by_cases hk : k ∈ akeys mA
  · rw [if_pos hk, if_pos ((akeys_mem_of_lookup_eq mA mB hlook k).mp hk),
      lineageFor_ext mA mB hlook]
  · rw [if_neg hk,
      if_neg (fun hh => hk ((akeys_mem_of_lookup_eq mA mB hlook k).mpr hh))]

theorem buildIndex_depth0 (crates : List CrateData) :
    ∀ x n, aget? (buildIndex crates).1 x = some n → n.depth = 0 := by
  intro x n hx
  rw [buildIndex_lookup] at hx
  cases hf : findLast? crates x with
  | none =>
    rw [hf] at hx
    exact Option.noConfusion hx
  | some c =>
    rw [hf] at hx
    injection hx with hx
    rw [← hx]
    rfl

/-! ### C4 -/

/-- **C4** (amended): for inputs with distinct keys in which the forward
BFS visits every key (so the order-sensitive fallback assigns no depth),
building from any permutation of the records yields the same root set, the
same per-key nodes (hence depths), and the same per-key lineages. -/
theorem c4_amended_order_independent (l1 l2 : List CrateData)
    (hperm : l1.Perm l2)
    (hnodup : (l1.map CrateData.pubkey).Nodup)
    (hvisited : ∀ k ∈ akeys (buildIndex l1).1,
      k ∈ (bfsPhase (buildIndex l1).1 (buildIndex l1).2).1) :
    (∀ x, x ∈ (build_supply_chain_graph l1).root_crates ↔
      x ∈ (build_supply_chain_graph l2).root_crates) ∧
    (∀ x, aget? (build_supply_chain_graph l1).crates x =
      aget? (build_supply_chain_graph l2).crates x) ∧
    (∀ x, aget? (build_supply_chain_graph l1).lineages x =
      aget? (build_supply_chain_graph l2).lineages x) := by
  have hlook0 : ∀ x, aget? (buildIndex l1).1 x = aget? (buildIndex l2).1 x :=
    buildIndex_lookup_perm l1 l2 hperm hnodup
  have hkeys0 : ∀ x, x ∈ akeys (buildIndex l1).1 ↔
      x ∈ akeys (buildIndex l2).1 :=
    akeys_mem_of_lookup_eq _ _ hlook0
  have hroots0 : ∀ x, x ∈ (buildIndex l1).2 ↔ x ∈ (buildIndex l2).2 := by
    intro x
    rw [buildIndex_roots_mem, buildIndex_roots_mem]
    constructor
    · rintro ⟨c, hc, h1, h2⟩
      exact ⟨c, hperm.mem_iff.mp hc, h1, h2⟩
    · rintro ⟨c, hc, h1, h2⟩
      exact ⟨c, hperm.mem_iff.mpr hc, h1, h2⟩
  have hRsub1 : ∀ r ∈ (buildIndex l1).2, r ∈ akeys (buildIndex l1).1 := by
    intro r hr
    obtain ⟨c, hc, hpk, _⟩ := (buildIndex_roots_mem l1 r).mp hr
    exact (buildIndex_keys_mem l1 r).mpr ⟨c, hc, hpk⟩
  have hRsub2 : ∀ r ∈ (buildIndex l2).2, r ∈ akeys (buildIndex l2).1 := by
    intro r hr
    obtain ⟨c, hc, hpk, _⟩ := (buildIndex_roots_mem l2 r).mp hr
    exact (buildIndex_keys_mem l2 r).mpr ⟨c, hc, hpk⟩
  obtain ⟨hvis1, hstruct1, hdist1⟩ := bfsPhase_spec (buildIndex l1).1
    (buildIndex l1).2 hRsub1 (buildIndex_depth0 l1)
  obtain ⟨hvis2, hstruct2, hdist2⟩ := bfsPhase_spec (buildIndex l2).1
    (buildIndex l2).2 hRsub2 (buildIndex_depth0 l2)
  have hFR : ∀ k n, FromRoots (buildIndex l1).1 (buildIndex l1).2 k n ↔
      FromRoots (buildIndex l2).1 (buildIndex l2).2 k n :=
    fun k n => ⟨fromRoots_congr _ _ _ _ hlook0 hroots0 k n,
      fromRoots_congr _ _ _ _ (fun x => (hlook0 x).symm)
        (fun x => (hroots0 x).symm) k n⟩
  have hvisIff : ∀ x,
      x ∈ (bfsPhase (buildIndex l1).1 (buildIndex l1).2).1 ↔
      x ∈ (bfsPhase (buildIndex l2).1 (buildIndex l2).2).1 := by
    intro x
    rw [hvis1, hvis2]
    exact exists_congr (fun n => hFR x n)
  have hvisited2 : ∀ k ∈ akeys (buildIndex l2).1,
      k ∈ (bfsPhase (buildIndex l2).1 (buildIndex l2).2).1 := by
    intro k hk
    exact (hvisIff k).mp (hvisited k ((hkeys0 k).mpr hk))
  have hm2 : ∀ x, aget? (bfsPhase (buildIndex l1).1 (buildIndex l1).2).2 x =
      aget? (bfsPhase (buildIndex l2).1 (buildIndex l2).2).2 x := by
    intro x
    by_cases hx : x ∈ akeys (buildIndex l1).1
    · have hv1 := hvisited x hx
      have hv2 := hvisited2 x ((hkeys0 x).mp hx)
      obtain ⟨n1, hn1, hl1⟩ := hdist1 x hv1
      obtain ⟨n2, hn2, hl2⟩ := hdist2 x hv2
      have hdeq : n1.depth = n2.depth :=
        Nat.le_antisymm (hl1.2 _ ((hFR x n2.depth).mpr hl2.1))
          (hl2.2 _ ((hFR x n1.depth).mp hl1.1))
      have hE : eraseDepth n1 = eraseDepth n2 := by
        have e1 := hstruct1 x
        rw [hn1, hlook0 x] at e1
        have e2 := hstruct2 x
        rw [hn2] at e2
        have e3 := e1.trans e2.symm
        simp only [Option.map_some', Option.some.injEq] at e3
        exact e3
      rw [hn1, hn2, crateNode_eq_of_eraseDepth n1 n2 hE hdeq]
    · have hx2 : x ∉ akeys (buildIndex l2).1 :=
        fun hh => hx ((hkeys0 x).mpr hh)
      have h1 : aget? (bfsPhase (buildIndex l1).1 (buildIndex l1).2).2 x =
          none := by
        rw [aget?_eq_none, bfsPhase_akeys]
        exact hx
      have h2 : aget? (bfsPhase (buildIndex l2).1 (buildIndex l2).2).2 x =
          none := by
        rw [aget?_eq_none, bfsPhase_akeys]
        exact hx2
      rw [h1, h2]
  have hid1 := fallbackPass_id
    (bfsPhase (buildIndex l1).1 (buildIndex l1).2).1
    (bfsPhase (buildIndex l1).1 (buildIndex l1).2).2 (buildIndex l1).2
    (by
      intro x hx
      rw [bfsPhase_akeys] at hx
      exact hvisited x hx)
  have hid2 := fallbackPass_id
    (bfsPhase (buildIndex l2).1 (buildIndex l2).2).1
    (bfsPhase (buildIndex l2).1 (buildIndex l2).2).2 (buildIndex l2).2
    (by
      intro x hx
      rw [bfsPhase_akeys] at hx
      exact hvisited2 x hx)
  have hcr1 : (build_supply_chain_graph l1).crates =
      (bfsPhase (buildIndex l1).1 (buildIndex l1).2).2 := by
    show (fallbackPass (bfsPhase (buildIndex l1).1 (buildIndex l1).2).1
      (bfsPhase (buildIndex l1).1 (buildIndex l1).2).2 (buildIndex l1).2).1 = _
    rw [hid1]
  have hcr2 : (build_supply_chain_graph l2).crates =
      (bfsPhase (buildIndex l2).1 (buildIndex l2).2).2 := by
    show (fallbackPass (bfsPhase (buildIndex l2).1 (buildIndex l2).2).1
      (bfsPhase (buildIndex l2).1 (buildIndex l2).2).2 (buildIndex l2).2).1 = _
    rw [hid2]
  have hrt1 : (build_supply_chain_graph l1).root_crates = (buildIndex l1).2 := by
    show (fallbackPass (bfsPhase (buildIndex l1).1 (buildIndex l1).2).1
      (bfsPhase (buildIndex l1).1 (buildIndex l1).2).2 (buildIndex l1).2).2 = _
    rw [hid1]
  have hrt2 : (build_supply_chain_graph l2).root_crates = (buildIndex l2).2 := by
    show (fallbackPass (bfsPhase (buildIndex l2).1 (buildIndex l2).2).1
      (bfsPhase (buildIndex l2).1 (buildIndex l2).2).2 (buildIndex l2).2).2 = _
    rw [hid2]
  refine ⟨?_, ?_, ?_⟩
  · intro x
    rw [hrt1, hrt2]
    exact hroots0 x
  · intro x
    rw [hcr1, hcr2]
    exact hm2 x
  · intro x
    show aget? (lineagePass (build_supply_chain_graph l1).crates) x =
      aget? (lineagePass (build_supply_chain_graph l2).crates) x
    rw [hcr1, hcr2]
    exact lineagePass_ext _ _ hm2 x

unseal bfsLoop tracePaths in
/-- Witness for the amended C4 on the two orderings of a two-record
chain. -/
theorem c4_amended_witness :
    (List.Perm [recA, recB] [recB, recA] ∧
      ((([recA, recB].map CrateData.pubkey)).Nodup)) ∧
    ((∀ x, x ∈ (build_supply_chain_graph [recA, recB]).root_crates ↔
      x ∈ (build_supply_chain_graph [recB, recA]).root_crates) ∧
    (∀ x, aget? (build_supply_chain_graph [recA, recB]).crates x =
      aget? (build_supply_chain_graph [recB, recA]).crates x) ∧
    (∀ x, aget? (build_supply_chain_graph [recA, recB]).lineages x =
      aget? (build_supply_chain_graph [recB, recA]).lineages x)) :=
  ⟨⟨List.Perm.swap _ _ _, by decide⟩,
   c4_amended_order_independent [recA, recB] [recB, recA]
     (List.Perm.swap _ _ _) (by decide) (by decide)⟩

end NeutraLink
